import Mathlib

set_option maxRecDepth 16000
set_option maxHeartbeats 8000000

/-!
Verification of `ride_winchester/ride_leader_allocation_tool.py`.

The Python program builds a directed flow network (a `networkx.DiGraph`) from
a list of rides and a mapping from leaders to offered rides
(`populate_graph`), runs `nx.maximum_flow` followed by `nx.min_cost_flow`
(`assign_ride_leaders`), and reads the resulting leader allocations back out
of the flow dictionary (`extract_allocations`).

The graph construction, the demand mutation, and the extraction are embedded
here as executable Lean functions, translated line by line from the source.
The two solver calls live in the external networkx library; they are modelled
by their documented contracts (also spelled out in spec sections 4.3 and 4.4):
`nx.maximum_flow` returns the maximum value of a feasible source-to-sink flow,
and `nx.min_cost_flow` returns a feasible flow meeting every node demand of
minimum total cost, raising `NetworkXUnfeasible` when no such flow exists.
With integer capacities both solvers produce integral flows, so flows are
functions into `Nat`.
-/

/-- A directed edge with its `capacity` and `weight` attributes, as stored on
a `networkx.DiGraph` edge by `populate_graph`. -/
structure Edge where
  src : String
  dst : String
  capacity : Nat
  weight : Nat
deriving DecidableEq

/-- The graph: nodes (name together with the `demand` attribute, 0 when the
attribute is absent) and edges, both in insertion order as kept by
`networkx.DiGraph`. At most one edge per ordered node pair. -/
structure Graph where
  nodes : List (String × Int)
  edges : List Edge
deriving DecidableEq

/-- Names of the nodes, in insertion order. -/
def nodeNames (g : Graph) : List String := g.nodes.map Prod.fst

/-- The ordered pairs of endpoints of the edges. -/
def edgePairs (g : Graph) : List (String × String) :=
  g.edges.map (fun e => (e.src, e.dst))

/-- `graph.add_node(n)` with no attributes: inserts the node if absent (the
`demand` attribute is absent, which the solvers read as 0); an existing node
is left unchanged. -/
def addNode0 (g : Graph) (n : String) : Graph :=
  if n ∈ nodeNames g then g else { g with nodes := g.nodes ++ [(n, 0)] }

/-- `graph.add_node(n, demand=d)`: inserts the node with demand `d`, or
overwrites the demand of an existing node in place. -/
def addNodeD (g : Graph) (n : String) (d : Int) : Graph :=
  if n ∈ nodeNames g then
    { g with nodes := g.nodes.map (fun p => if p.1 = n then (n, d) else p) }
  else { g with nodes := g.nodes ++ [(n, d)] }

/-- `graph.add_edge(u, v, capacity=c, weight=w)`: adds missing endpoints as
attribute-less nodes, then appends the edge, or overwrites the attributes of
an existing `(u, v)` edge in place (a `DiGraph` holds no parallel edges). -/
def addEdge (g : Graph) (u v : String) (c w : Nat) : Graph :=
  let g := addNode0 (addNode0 g u) v
  if (u, v) ∈ edgePairs g then
    { g with edges := g.edges.map (fun e => if e.src = u ∧ e.dst = v then ⟨u, v, c, w⟩ else e) }
  else { g with edges := g.edges ++ [⟨u, v, c, w⟩] }

/-- `graph.nodes[n]['demand'] = d`: overwrite one node's demand in place. -/
def setDemand (g : Graph) (n : String) (d : Int) : Graph :=
  { g with nodes := g.nodes.map (fun p => if p.1 = n then (p.1, d) else p) }

/-- The name `f"{leader}_slot_{i}"` of a leveling slot node. -/
def slotName (leader : String) (i : Nat) : String :=
  leader ++ "_slot_" ++ toString i

/-- `populate_graph(rides, leaders_offers)` from the source: source and sink
nodes, one capacity-1 edge from the source to each ride, per leader the
`_in`/`_out` nodes with the capacity-1 slot ladder (slot `i` has weight `i`)
and the `_out → SINK` edge of capacity `len(offers)`, and finally a
capacity-1 weight-0 edge from each offered ride to the leader's `_in` node,
skipping offers that are not in `rides` (the source also prints a warning for
such offers; the print is invisible to the caller and is not modelled). -/
def populate_graph (rides : List String) (leaders_offers : List (String × List String)) :
    Graph × String × String :=
  let source := "SOURCE"
  let sink := "SINK"
  let g : Graph := ⟨[], []⟩
  let g := addNode0 g source
  let g := addNode0 g sink
  let g := rides.foldl (fun g r => addEdge (addNodeD g r 0) source r 1 0) g
  let g := leaders_offers.foldl (fun g lo =>
    let leaderIn := lo.1 ++ "_in"
    let leaderOut := lo.1 ++ "_out"
    let g := addNodeD (addNodeD g leaderIn 0) leaderOut 0
    let g := (List.range lo.2.length).foldl (fun g i =>
      let s := slotName lo.1 i
      addEdge (addEdge (addNodeD g s 0) leaderIn s 1 0) s leaderOut 1 i) g
    addEdge g leaderOut sink lo.2.length 0) g
  let g := leaders_offers.foldl (fun g lo =>
    let leaderIn := lo.1 ++ "_in"
    lo.2.foldl (fun g o => if o ∈ rides then addEdge g o leaderIn 1 0 else g) g) g
  (g, source, sink)

/-- Shorthand for the graph component of `populate_graph`. -/
def pgOf (rides : List String) (leaders_offers : List (String × List String)) : Graph :=
  (populate_graph rides leaders_offers).1

/-- The two demand assignments in `assign_ride_leaders`:
`graph.nodes[source]['demand'] = -F; graph.nodes[sink]['demand'] = F`. -/
def setDemands (g : Graph) (source sink : String) (F : Nat) : Graph :=
  setDemand (setDemand g source (-(F : Int))) sink (F : Int)

/-- Sum of `f` over the edges leaving `n`. -/
def edgeOutSum (f : String → String → Nat) (n : String) : List Edge → Nat
  | [] => 0
  | e :: es => (if e.src = n then f e.src e.dst else 0) + edgeOutSum f n es

/-- Sum of `f` over the edges entering `n`. -/
def edgeInSum (f : String → String → Nat) (n : String) : List Edge → Nat
  | [] => 0
  | e :: es => (if e.dst = n then f e.src e.dst else 0) + edgeInSum f n es

/-- Flow out of node `n`. -/
def outflow (g : Graph) (f : String → String → Nat) (n : String) : Nat :=
  edgeOutSum f n g.edges

/-- Flow into node `n`. -/
def inflow (g : Graph) (f : String → String → Nat) (n : String) : Nat :=
  edgeInSum f n g.edges

/-- Net inflow of a node; `nx.min_cost_flow` requires it to equal the node's
demand. -/
def excess (g : Graph) (f : String → String → Nat) (n : String) : Int :=
  (inflow g f n : Int) - (outflow g f n : Int)

/-- Net flow out of the source; the value `nx.maximum_flow` maximizes. -/
def flowValue (g : Graph) (f : String → String → Nat) (source : String) : Int :=
  (outflow g f source : Int) - (inflow g f source : Int)

/-- Sum of `weight * flow` over a list of edges. -/
def costSum (f : String → String → Nat) : List Edge → Nat
  | [] => 0
  | e :: es => e.weight * f e.src e.dst + costSum f es

/-- Total cost of a flow: sum over all edges of `weight * flow`. -/
def cost (g : Graph) (f : String → String → Nat) : Nat :=
  costSum f g.edges

/-- A flow respects every edge capacity.  (Flow values off the edge set never
enter any sum below, so no condition on them is needed.) -/
def FeasibleFlow (g : Graph) (f : String → String → Nat) : Prop :=
  ∀ e ∈ g.edges, f e.src e.dst ≤ e.capacity

/-- Flow conservation at every node other than the source and the sink. -/
def Conserved (g : Graph) (f : String → String → Nat) (source sink : String) : Prop :=
  ∀ p ∈ g.nodes, p.1 ≠ source → p.1 ≠ sink → excess g f p.1 = 0

/-- Every node's net inflow equals its `demand` attribute — the constraint
solved by `nx.min_cost_flow`. -/
def SatisfiesDemands (g : Graph) (f : String → String → Nat) : Prop :=
  ∀ p ∈ g.nodes, excess g f p.1 = p.2

/-- Contract of `nx.maximum_flow(graph, source, sink)` (spec section 4.3):
`F` is the value of some feasible conserved flow, and no feasible conserved
flow has a larger value. -/
def MaxFlowSpec (g : Graph) (source sink : String) (F : Nat) : Prop :=
  (∃ f, FeasibleFlow g f ∧ Conserved g f source sink ∧ flowValue g f source = F) ∧
  (∀ f, FeasibleFlow g f → Conserved g f source sink → flowValue g f source ≤ F)

/-- Contract of `nx.min_cost_flow(graph)` (spec section 4.4): the returned
flow is feasible, meets every node demand, and has minimal cost among all
such flows. -/
def MinCostFlowSpec (g : Graph) (f : String → String → Nat) : Prop :=
  FeasibleFlow g f ∧ SatisfiesDemands g f ∧
  (∀ f', FeasibleFlow g f' → SatisfiesDemands g f' → cost g f ≤ cost g f')

/-- `assign_ride_leaders(graph, source, sink)` as a relation between the
built graph and the returned pair.  Phase 1 computes the maximum flow value
`F` (its flow dictionary is discarded by the source), the demands are set to
`-F`/`F`, and phase 2 either returns a minimum-cost flow meeting the demands
(`res = (F, some f)`) or raises `NetworkXUnfeasible`, which the source
catches, printing a message and returning `0, {}` (`res = (0, none)`). -/
def AssignResult (g : Graph) (source sink : String)
    (res : Nat × Option (String → String → Nat)) : Prop :=
  ∃ F, MaxFlowSpec g source sink F ∧
    ((∃ f, MinCostFlowSpec (setDemands g source sink F) f ∧ res = (F, some f)) ∨
     ((¬ ∃ f, FeasibleFlow (setDemands g source sink F) f ∧
         SatisfiesDemands (setDemands g source sink F) f) ∧ res = (0, none)))

/-- Successor names of `n` in edge order — the keys of `flow_dict[n]` for a
flow dictionary returned by the solver. -/
def successors (g : Graph) (n : String) : List String :=
  (g.edges.filter (fun e => e.src == n)).map Edge.dst

/-- Python's `s.replace('_in', '')` on the character list: every occurrence
of `_in` is removed, scanning left to right. -/
def replaceInAux : List Char → List Char
  | [] => []
  | '_' :: 'i' :: 'n' :: rest => replaceInAux rest
  | c :: rest => c :: replaceInAux rest

/-- Python's `s.replace('_in', '')` on strings. -/
def replace_in (s : String) : String := ⟨replaceInAux s.data⟩

/-- `allocations[k].append(r)` on an association list: appends when the key
is present, and returns `none` for the `KeyError` Python raises when it is
not. -/
def updAppend (al : List (String × List String)) (k r : String) :
    Option (List (String × List String)) :=
  if k ∈ al.map Prod.fst then
    some (al.map (fun p => if p.1 = k then (p.1, p.2 ++ [r]) else p))
  else none

/-- `extract_allocations(flow_dict, rides, leader_offers)` from the source.
`fd = none` models the empty dictionary `{}` (then `ride in flow_dict` is
always false); `fd = some f` models a full solver dictionary, whose keys are
exactly the graph's nodes and where `flow_dict[r]` lists the flow to each
successor of `r`.  A `KeyError` from `allocations[...]` is `none`. -/
def extract_allocations (g : Graph) (fd : Option (String → String → Nat))
    (rides : List String) (leader_offers : List (String × List String)) :
    Option (List (String × List String)) :=
  let init := leader_offers.map (fun p => (p.1, ([] : List String)))
  match fd with
  | none => some init
  | some f =>
    rides.foldl (fun acc r =>
      match acc with
      | none => none
      | some al =>
        if r ∈ nodeNames g then
          (successors g r).foldl (fun acc2 v =>
            match acc2 with
            | none => none
            | some al2 =>
              if 0 < f r v then updAppend al2 (replace_in v) r else some al2)
            (some al)
        else some al) (some init)

/-- Synthetic node names generated for the leaders, in insertion order. -/
def synthNames : List (String × List String) → List String
  | [] => []
  | lo :: rest =>
      (lo.1 ++ "_in") :: (lo.1 ++ "_out") ::
        ((List.range lo.2.length).map (slotName lo.1) ++ synthNames rest)

/-- Validity of an input, following the input contract of spec section 6:
ride ids and leader ids are unique, offer lists are duplicate-free sets, and
the opaque ids do not collide with the reserved node names that the stringly
typed construction derives from them.  The last condition states that
removing `_in` from a leader's `_in` node name gives back the leader id (it
fails exactly for leader ids containing `_in`, see the analysis of the
extraction step). -/
def ValidInput (rides : List String) (leaders_offers : List (String × List String)) : Prop :=
  rides.Nodup ∧
  (leaders_offers.map Prod.fst).Nodup ∧
  (synthNames leaders_offers).Nodup ∧
  (∀ lo ∈ leaders_offers, lo.2.Nodup) ∧
  "SOURCE" ∉ rides ∧ "SINK" ∉ rides ∧
  "SOURCE" ∉ synthNames leaders_offers ∧ "SINK" ∉ synthNames leaders_offers ∧
  (∀ r ∈ rides, r ∉ synthNames leaders_offers) ∧
  (∀ lo ∈ leaders_offers, replace_in (lo.1 ++ "_in") = lo.1)

/-- The `SOURCE → ride` edges, in order. -/
def srcEdges (rides : List String) : List Edge :=
  rides.map (fun r => ⟨"SOURCE", r, 1, 0⟩)

/-- The leveling edges of one leader: `_in → slot i` (capacity 1, weight 0)
and `slot i → _out` (capacity 1, weight `i`) for each slot, then
`_out → SINK` with capacity `len(offers)`. -/
def leaderEdges (lo : String × List String) : List Edge :=
  ((List.range lo.2.length).flatMap (fun i =>
    [⟨lo.1 ++ "_in", slotName lo.1 i, 1, 0⟩, ⟨slotName lo.1 i, lo.1 ++ "_out", 1, i⟩])) ++
  [⟨lo.1 ++ "_out", "SINK", lo.2.length, 0⟩]

/-- All leveling edges, leader by leader. -/
def leadersEdges : List (String × List String) → List Edge
  | [] => []
  | lo :: rest => leaderEdges lo ++ leadersEdges rest

/-- The offer edges of one leader: `ride → _in` for each offered ride that is
present in `rides`, in offer order. -/
def offerEdges (rides : List String) (lo : String × List String) : List Edge :=
  (lo.2.filter (fun o => o ∈ rides)).map (fun o => ⟨o, lo.1 ++ "_in", 1, 0⟩)

/-- All offer edges, leader by leader. -/
def offersEdges (rides : List String) : List (String × List String) → List Edge
  | [] => []
  | lo :: rest => offerEdges rides lo ++ offersEdges rides rest

/-- Closed form of the edge list built by `populate_graph` on valid input. -/
def pgEdges (rides : List String) (leaders_offers : List (String × List String)) : List Edge :=
  srcEdges rides ++ leadersEdges leaders_offers ++ offersEdges rides leaders_offers

/-- The nodes generated for one leader, in insertion order. -/
def leaderNodes (lo : String × List String) : List (String × Int) :=
  (lo.1 ++ "_in", 0) :: (lo.1 ++ "_out", 0) ::
    (List.range lo.2.length).map (fun i => (slotName lo.1 i, 0))

/-- All leader nodes, leader by leader. -/
def leadersNodes : List (String × List String) → List (String × Int)
  | [] => []
  | lo :: rest => leaderNodes lo ++ leadersNodes rest

/-- Closed form of the node list built by `populate_graph` on valid input. -/
def pgNodes (rides : List String) (leaders_offers : List (String × List String)) :
    List (String × Int) :=
  ("SOURCE", 0) :: ("SINK", 0) :: (rides.map (fun r => (r, 0)) ++ leadersNodes leaders_offers)

/-- The allocation the extraction step computes on valid input: each leader
keyed in input order, mapped to the offered-and-present rides that send their
unit of flow to that leader, in ride order. -/
def allocSpec (rides : List String) (leaders_offers : List (String × List String))
    (f : String → String → Nat) : List (String × List String) :=
  leaders_offers.map (fun lo =>
    (lo.1, rides.filter (fun r => decide (r ∈ lo.2) && decide (0 < f r (lo.1 ++ "_in")))))

/-- The load a leader receives under flow `f`: total flow on the offer edges
into the leader's `_in` node. -/
def leaderLoad (f : String → String → Nat) (rides : List String)
    (lo : String × List String) : Nat :=
  ((lo.2.filter (fun o => decide (o ∈ rides))).map (fun o => f o (lo.1 ++ "_in"))).sum

/-- The flow a ride sends towards the leaders: one summand per leader whose
offer list contains the ride. -/
def offerOut (f : String → String → Nat) (r : String)
    (leaders_offers : List (String × List String)) : Nat :=
  (leaders_offers.map (fun lo => if r ∈ lo.2 then f r (lo.1 ++ "_in") else 0)).sum

/-- Every edge's endpoints are registered nodes. -/
def EdgesClosed (g : Graph) : Prop :=
  ∀ e ∈ g.edges, e.src ∈ nodeNames g ∧ e.dst ∈ nodeNames g

/-- Every node's demand attribute is 0. -/
def ZeroDemands (g : Graph) : Prop := ∀ p ∈ g.nodes, p.2 = 0

/-- The structural invariant maintained by every step of `populate_graph`
after the source and sink are inserted. -/
def GraphInv (g : Graph) : Prop :=
  ZeroDemands g ∧ (nodeNames g).Nodup ∧ EdgesClosed g ∧
  "SOURCE" ∈ nodeNames g ∧ "SINK" ∈ nodeNames g

/-- A one-ride, one-leader input used to exercise the pipeline theorems. -/
def oneRides : List String := ["R1"]

/-- Offers of the one-ride input: leader `A` offers the single ride. -/
def oneOffers : List (String × List String) := [("A", ["R1"])]

/-- The network built from the one-ride input. -/
def oneG : Graph := pgOf oneRides oneOffers

/-- The unit flow pushing the single ride through leader `A`. -/
def oneFlow : String → String → Nat := fun u v =>
  match u, v with
  | "SOURCE", "R1" => 1
  | "R1", "A_in" => 1
  | "A_in", "A_slot_0" => 1
  | "A_slot_0", "A_out" => 1
  | "A_out", "SINK" => 1
  | _, _ => 0

/-- Scenario A of the spec, with the ride and leader names used there. -/
def scnRides : List String := ["R1", "R2", "R3", "R4", "R5", "R6"]

/-- Scenario A offers: `X:[R1,R2,R3], Y:[R1,R2,R4,R5], Z:[R3,R4,R5]`. -/
def scnOffers : List (String × List String) :=
  [("X", ["R1", "R2", "R3"]), ("Y", ["R1", "R2", "R4", "R5"]), ("Z", ["R3", "R4", "R5"])]

/-- The network built from Scenario A. -/
def scnG : Graph := pgOf scnRides scnOffers

/-- A flow of value 5 and cost 2 on the Scenario A network: `X` takes
`R1, R2`, `Y` takes `R4, R5`, `Z` takes `R3`; `R6` is offered by nobody. -/
def scnFlow : String → String → Nat := fun u v =>
  match u, v with
  | "SOURCE", "R1" => 1
  | "SOURCE", "R2" => 1
  | "SOURCE", "R3" => 1
  | "SOURCE", "R4" => 1
  | "SOURCE", "R5" => 1
  | "R1", "X_in" => 1
  | "R2", "X_in" => 1
  | "R3", "Z_in" => 1
  | "R4", "Y_in" => 1
  | "R5", "Y_in" => 1
  | "X_in", "X_slot_0" => 1
  | "X_in", "X_slot_1" => 1
  | "X_slot_0", "X_out" => 1
  | "X_slot_1", "X_out" => 1
  | "Y_in", "Y_slot_0" => 1
  | "Y_in", "Y_slot_1" => 1
  | "Y_slot_0", "Y_out" => 1
  | "Y_slot_1", "Y_out" => 1
  | "Z_in", "Z_slot_0" => 1
  | "Z_slot_0", "Z_out" => 1
  | "X_out", "SINK" => 2
  | "Y_out", "SINK" => 2
  | "Z_out", "SINK" => 1
  | _, _ => 0

/-- A leader id that contains the substring `_in`, a legal opaque string id
per the input contract. -/
def kevRides : List String := ["R1"]

/-- The offers of the `_in`-containing leader. -/
def kevOffers : List (String × List String) := [("Kev_in", ["R1"])]

/-- The network built for leader `Kev_in`. -/
def kevG : Graph := pgOf kevRides kevOffers

/-- The unit flow assigning the ride to leader `Kev_in`. -/
def kevFlow : String → String → Nat := fun u v =>
  match u, v with
  | "SOURCE", "R1" => 1
  | "R1", "Kev_in_in" => 1
  | "Kev_in_in", "Kev_in_slot_0" => 1
  | "Kev_in_slot_0", "Kev_in_out" => 1
  | "Kev_in_out", "SINK" => 1
  | _, _ => 0

/-- A graph on which the min-cost phase demand is infeasible: node `B`
carries a pre-existing demand of 1 and no edges exist, so after the max-flow
phase fixes demand 0 at `S` and `T`, no flow can give `B` an excess of 1. -/
def badG : Graph := ⟨[("S", 0), ("T", 0), ("B", 1)], []⟩

/-- The all-zero flow. -/
def zeroFlow : String → String → Nat := fun _ _ => 0

/-- The edge list of the Scenario A network, in construction order. -/
def scnEdges : List Edge :=
  [⟨"SOURCE", "R1", 1, 0⟩, ⟨"SOURCE", "R2", 1, 0⟩, ⟨"SOURCE", "R3", 1, 0⟩,
   ⟨"SOURCE", "R4", 1, 0⟩, ⟨"SOURCE", "R5", 1, 0⟩, ⟨"SOURCE", "R6", 1, 0⟩,
   ⟨"X_in", "X_slot_0", 1, 0⟩, ⟨"X_slot_0", "X_out", 1, 0⟩, ⟨"X_in", "X_slot_1", 1, 0⟩,
   ⟨"X_slot_1", "X_out", 1, 1⟩, ⟨"X_in", "X_slot_2", 1, 0⟩, ⟨"X_slot_2", "X_out", 1, 2⟩,
   ⟨"X_out", "SINK", 3, 0⟩, ⟨"Y_in", "Y_slot_0", 1, 0⟩, ⟨"Y_slot_0", "Y_out", 1, 0⟩,
   ⟨"Y_in", "Y_slot_1", 1, 0⟩, ⟨"Y_slot_1", "Y_out", 1, 1⟩, ⟨"Y_in", "Y_slot_2", 1, 0⟩,
   ⟨"Y_slot_2", "Y_out", 1, 2⟩, ⟨"Y_in", "Y_slot_3", 1, 0⟩, ⟨"Y_slot_3", "Y_out", 1, 3⟩,
   ⟨"Y_out", "SINK", 4, 0⟩, ⟨"Z_in", "Z_slot_0", 1, 0⟩, ⟨"Z_slot_0", "Z_out", 1, 0⟩,
   ⟨"Z_in", "Z_slot_1", 1, 0⟩, ⟨"Z_slot_1", "Z_out", 1, 1⟩, ⟨"Z_in", "Z_slot_2", 1, 0⟩,
   ⟨"Z_slot_2", "Z_out", 1, 2⟩, ⟨"Z_out", "SINK", 3, 0⟩, ⟨"R1", "X_in", 1, 0⟩,
   ⟨"R2", "X_in", 1, 0⟩, ⟨"R3", "X_in", 1, 0⟩, ⟨"R1", "Y_in", 1, 0⟩,
   ⟨"R2", "Y_in", 1, 0⟩, ⟨"R4", "Y_in", 1, 0⟩, ⟨"R5", "Y_in", 1, 0⟩,
   ⟨"R3", "Z_in", 1, 0⟩, ⟨"R4", "Z_in", 1, 0⟩, ⟨"R5", "Z_in", 1, 0⟩]

/-- The node list of the Scenario A network after the demand writes for
`F = 5`. -/
def scnNodesD : List (String × Int) :=
  [("SOURCE", -5), ("SINK", 5), ("R1", 0), ("R2", 0),
   ("R3", 0), ("R4", 0), ("R5", 0), ("R6", 0),
   ("X_in", 0), ("X_out", 0), ("X_slot_0", 0), ("X_slot_1", 0),
   ("X_slot_2", 0), ("Y_in", 0), ("Y_out", 0), ("Y_slot_0", 0),
   ("Y_slot_1", 0), ("Y_slot_2", 0), ("Y_slot_3", 0), ("Z_in", 0),
   ("Z_out", 0), ("Z_slot_0", 0), ("Z_slot_1", 0), ("Z_slot_2", 0)]

/- ### Basic lemmas about the graph operations -/

theorem addNode0_of_mem {g : Graph} {n : String} (h : n ∈ nodeNames g) :
    addNode0 g n = g := by
  simp [addNode0, h]

theorem addNode0_of_not_mem {g : Graph} {n : String} (h : n ∉ nodeNames g) :
    addNode0 g n = ⟨g.nodes ++ [(n, 0)], g.edges⟩ := by
  simp [addNode0, h]

theorem addNodeD_of_not_mem {g : Graph} {n : String} {d : Int} (h : n ∉ nodeNames g) :
    addNodeD g n d = ⟨g.nodes ++ [(n, d)], g.edges⟩ := by
  simp [addNodeD, h]

theorem nodeNames_addNodeD (g : Graph) (n : String) (d : Int) :
    nodeNames (addNodeD g n d) = nodeNames g ++ (if n ∈ nodeNames g then [] else [n]) := by
  unfold addNodeD
  by_cases h : n ∈ nodeNames g
  · simp only [if_pos h, List.append_nil]
    show List.map Prod.fst (g.nodes.map fun p => if p.1 = n then (n, d) else p) = nodeNames g
    rw [List.map_map]
    apply List.map_congr_left
    intro p _
    by_cases hp : p.1 = n
    · simp [hp]
    · simp [hp]
  · rw [if_neg h, if_neg h]
    simp [nodeNames]

theorem edges_addNodeD (g : Graph) (n : String) (d : Int) :
    (addNodeD g n d).edges = g.edges := by
  by_cases h : n ∈ nodeNames g <;> simp [addNodeD, h]

theorem edges_addNode0 (g : Graph) (n : String) :
    (addNode0 g n).edges = g.edges := by
  by_cases h : n ∈ nodeNames g <;> simp [addNode0, h]

theorem not_mem_edgePairs_of_src {g : Graph} {u v : String} (hEC : EdgesClosed g)
    (h : u ∉ nodeNames g) : (u, v) ∉ edgePairs g := by
  intro hmem
  simp only [edgePairs, List.mem_map] at hmem
  obtain ⟨e, he, heq⟩ := hmem
  apply h
  have := (hEC e he).1
  rwa [show e.src = u from congrArg Prod.fst heq] at this

theorem not_mem_edgePairs_of_dst {g : Graph} {u v : String} (hEC : EdgesClosed g)
    (h : v ∉ nodeNames g) : (u, v) ∉ edgePairs g := by
  intro hmem
  simp only [edgePairs, List.mem_map] at hmem
  obtain ⟨e, he, heq⟩ := hmem
  apply h
  have := (hEC e he).2
  rwa [show e.dst = v from congrArg Prod.snd heq] at this

theorem addEdge_append {g : Graph} {u v : String} (c w : Nat)
    (hu : u ∈ nodeNames g) (hv : v ∈ nodeNames g) (hp : (u, v) ∉ edgePairs g) :
    addEdge g u v c w = ⟨g.nodes, g.edges ++ [⟨u, v, c, w⟩]⟩ := by
  simp only [addEdge, addNode0_of_mem hu, addNode0_of_mem hv, if_neg hp]

theorem mem_nodeNames_addNode0_self (g : Graph) (n : String) :
    n ∈ nodeNames (addNode0 g n) := by
  by_cases h : n ∈ nodeNames g
  · rw [addNode0_of_mem h]; exact h
  · rw [addNode0_of_not_mem h]; simp [nodeNames]

theorem mem_nodeNames_addNode0 {g : Graph} {m : String} (n : String)
    (h : m ∈ nodeNames g) : m ∈ nodeNames (addNode0 g n) := by
  by_cases hn : n ∈ nodeNames g
  · rwa [addNode0_of_mem hn]
  · rw [addNode0_of_not_mem hn]; simp [nodeNames] at h ⊢; exact Or.inl h

/- ### The structural invariant is preserved by every operation -/

theorem foldl_preserve {α : Type} (P : Graph → Prop) (step : Graph → α → Graph)
    (hstep : ∀ g x, P g → P (step g x)) :
    ∀ (l : List α) (g : Graph), P g → P (l.foldl step g)
  | [], _, h => h
  | x :: xs, g, h => foldl_preserve P step hstep xs (step g x) (hstep g x h)

theorem graphInv_addNode0 {g : Graph} (n : String) (h : GraphInv g) :
    GraphInv (addNode0 g n) := by
  obtain ⟨hzero, hnd, hec, hS, hT⟩ := h
  by_cases hn : n ∈ nodeNames g
  · rw [addNode0_of_mem hn]; exact ⟨hzero, hnd, hec, hS, hT⟩
  · rw [addNode0_of_not_mem hn]
    have hnames : nodeNames ⟨g.nodes ++ [(n, 0)], g.edges⟩ = nodeNames g ++ [n] := by
      simp [nodeNames]
    refine ⟨?_, ?_, ?_, ?_, ?_⟩
    · intro p hp
      rcases List.mem_append.1 hp with h1 | h1
      · exact hzero p h1
      · simp at h1; rw [h1]
    · rw [hnames]
      exact List.Nodup.append hnd (List.nodup_singleton n) (by simpa using hn)
    · intro e he
      rw [hnames]
      exact ⟨List.mem_append_left _ (hec e he).1, List.mem_append_left _ (hec e he).2⟩
    · rw [hnames]; exact List.mem_append_left _ hS
    · rw [hnames]; exact List.mem_append_left _ hT

theorem graphInv_addNodeD0 {g : Graph} (n : String) (h : GraphInv g) :
    GraphInv (addNodeD g n 0) := by
  obtain ⟨hzero, hnd, hec, hS, hT⟩ := h
  have hnames := nodeNames_addNodeD g n 0
  have hedges := edges_addNodeD g n 0
  by_cases hn : n ∈ nodeNames g
  · rw [if_pos hn, List.append_nil] at hnames
    refine ⟨?_, by rw [hnames]; exact hnd, ?_, by rw [hnames]; exact hS,
      by rw [hnames]; exact hT⟩
    · intro p hp
      rw [addNodeD, if_pos hn] at hp
      simp only [List.mem_map] at hp
      obtain ⟨q, hq, hqe⟩ := hp
      by_cases hq1 : q.1 = n
      · rw [if_pos hq1] at hqe; rw [← hqe]
      · rw [if_neg hq1] at hqe; rw [← hqe]; exact hzero q hq
    · intro e he
      rw [hedges] at he
      rw [hnames]
      exact hec e he
  · rw [addNodeD_of_not_mem hn]
    refine ⟨?_, ?_, ?_, ?_, ?_⟩
    · intro p hp
      rcases List.mem_append.1 hp with h1 | h1
      · exact hzero p h1
      · simp at h1; rw [h1]
    · show (List.map Prod.fst (g.nodes ++ [(n, 0)])).Nodup
      rw [List.map_append]
      exact List.Nodup.append hnd (List.nodup_singleton n) (by simpa [nodeNames] using hn)
    · intro e he
      show _ ∈ List.map Prod.fst (g.nodes ++ [(n, 0)]) ∧ _ ∈ List.map Prod.fst (g.nodes ++ [(n, 0)])
      rw [List.map_append]
      exact ⟨List.mem_append_left _ (hec e he).1, List.mem_append_left _ (hec e he).2⟩
    · show _ ∈ List.map Prod.fst (g.nodes ++ [(n, 0)])
      rw [List.map_append]
      exact List.mem_append_left _ hS
    · show _ ∈ List.map Prod.fst (g.nodes ++ [(n, 0)])
      rw [List.map_append]
      exact List.mem_append_left _ hT

theorem graphInv_addEdge {g : Graph} (u v : String) (c w : Nat) (h : GraphInv g) :
    GraphInv (addEdge g u v c w) := by
  have h1 : GraphInv (addNode0 (addNode0 g u) v) :=
    graphInv_addNode0 v (graphInv_addNode0 u h)
  have hu : u ∈ nodeNames (addNode0 (addNode0 g u) v) :=
    mem_nodeNames_addNode0 v (mem_nodeNames_addNode0_self g u)
  have hv : v ∈ nodeNames (addNode0 (addNode0 g u) v) :=
    mem_nodeNames_addNode0_self (addNode0 g u) v
  obtain ⟨hzero, hnd, hec, hS, hT⟩ := h1
  set g1 := addNode0 (addNode0 g u) v with hg1
  unfold addEdge
  rw [← hg1]
  by_cases hp : (u, v) ∈ edgePairs g1
  · rw [if_pos hp]
    refine ⟨hzero, hnd, ?_, hS, hT⟩
    intro e he
    simp only [List.mem_map] at he
    obtain ⟨e0, he0, heq⟩ := he
    by_cases hc : e0.src = u ∧ e0.dst = v
    · rw [if_pos hc] at heq
      rw [← heq]
      exact ⟨hu, hv⟩
    · rw [if_neg hc] at heq
      rw [← heq]
      exact hec e0 he0
  · rw [if_neg hp]
    refine ⟨hzero, hnd, ?_, hS, hT⟩
    intro e he
    rcases List.mem_append.1 he with h1 | h1
    · exact hec e h1
    · simp at h1
      rw [h1]
      exact ⟨hu, hv⟩

/-- `populate_graph` always produces a graph satisfying the structural
invariant, whatever the input. -/
theorem pg_graphInv (rides : List String) (leaders_offers : List (String × List String)) :
    GraphInv (pgOf rides leaders_offers) := by
  have hbase : GraphInv (addNode0 (addNode0 ⟨[], []⟩ "SOURCE") "SINK") := by
    refine ⟨?_, ?_, ?_, ?_, ?_⟩ <;>
      simp [addNode0, nodeNames, ZeroDemands, EdgesClosed]
  unfold pgOf populate_graph
  simp only []
  apply foldl_preserve _ _ (fun g lo hg => ?_) _ _
    (foldl_preserve _ _ (fun g lo hg => ?_) _ _
      (foldl_preserve _ _ (fun g r hg => ?_) _ _ hbase))
  · apply foldl_preserve _ _ (fun g o hg => ?_) lo.2 g hg
    by_cases ho : o ∈ rides
    · rw [if_pos ho]; exact graphInv_addEdge _ _ _ _ hg
    · rwa [if_neg ho]
  · apply graphInv_addEdge
    apply foldl_preserve _ _ (fun g i hg => ?_) _ _
      (graphInv_addNodeD0 _ (graphInv_addNodeD0 _ hg))
    exact graphInv_addEdge _ _ _ _ (graphInv_addEdge _ _ _ _ (graphInv_addNodeD0 _ hg))
  · exact graphInv_addEdge _ _ _ _ (graphInv_addNodeD0 _ hg)

/- ### Demand mutation -/

theorem edges_setDemand (g : Graph) (n : String) (d : Int) :
    (setDemand g n d).edges = g.edges := rfl

theorem edges_setDemands (g : Graph) (s t : String) (F : Nat) :
    (setDemands g s t F).edges = g.edges := rfl

theorem excess_setDemands (g : Graph) (s t : String) (F : Nat)
    (f : String → String → Nat) (n : String) :
    excess (setDemands g s t F) f n = excess g f n := rfl

theorem cost_setDemands (g : Graph) (s t : String) (F : Nat) (f : String → String → Nat) :
    cost (setDemands g s t F) f = cost g f := rfl

theorem nodeNames_setDemand (g : Graph) (n : String) (d : Int) :
    nodeNames (setDemand g n d) = nodeNames g := by
  simp only [setDemand, nodeNames, List.map_map]
  apply List.map_congr_left
  intro p _
  by_cases hp : p.1 = n <;> simp [hp]

theorem mem_setDemand_self {g : Graph} {n : String} (h : n ∈ nodeNames g) (d : Int) :
    (n, d) ∈ (setDemand g n d).nodes := by
  simp only [nodeNames, List.mem_map] at h
  obtain ⟨p, hp, hp1⟩ := h
  refine List.mem_map.2 ⟨p, hp, ?_⟩
  rw [if_pos hp1, hp1]

theorem mem_setDemand_of_ne {g : Graph} {n : String} {d : Int} {p : String × Int}
    (hp : p ∈ g.nodes) (hne : p.1 ≠ n) : p ∈ (setDemand g n d).nodes := by
  refine List.mem_map.2 ⟨p, hp, ?_⟩
  rw [if_neg hne]

theorem mem_setDemand_inv {g : Graph} {n : String} {d : Int} {q : String × Int}
    (hq : q ∈ (setDemand g n d).nodes) :
    ∃ p ∈ g.nodes, q = if p.1 = n then (p.1, d) else p := by
  obtain ⟨p, hp, hpe⟩ := List.mem_map.1 hq
  exact ⟨p, hp, hpe.symm⟩

theorem mem_setDemands_source {g : Graph} (F : Nat) (hS : "SOURCE" ∈ nodeNames g) :
    ("SOURCE", -(F : Int)) ∈ (setDemands g "SOURCE" "SINK" F).nodes := by
  apply mem_setDemand_of_ne (mem_setDemand_self hS _)
  show "SOURCE" ≠ "SINK"
  decide

theorem mem_setDemands_sink {g : Graph} (F : Nat) (hT : "SINK" ∈ nodeNames g) :
    ("SINK", (F : Int)) ∈ (setDemands g "SOURCE" "SINK" F).nodes := by
  apply mem_setDemand_self
  rw [nodeNames_setDemand]
  exact hT

theorem mem_setDemands_other {g : Graph} (F : Nat) {p : String × Int}
    (hp : p ∈ g.nodes) (h1 : p.1 ≠ "SOURCE") (h2 : p.1 ≠ "SINK") :
    p ∈ (setDemands g "SOURCE" "SINK" F).nodes :=
  mem_setDemand_of_ne (mem_setDemand_of_ne hp h1) h2

theorem mem_setDemands_inv {g : Graph} {F : Nat} {q : String × Int}
    (hq : q ∈ (setDemands g "SOURCE" "SINK" F).nodes) :
    ∃ p ∈ g.nodes,
      q = if p.1 = "SOURCE" then (p.1, -(F : Int))
          else if p.1 = "SINK" then (p.1, (F : Int)) else p := by
  obtain ⟨q1, hq1, hq1e⟩ := mem_setDemand_inv hq
  obtain ⟨p, hp, hpe⟩ := mem_setDemand_inv hq1
  refine ⟨p, hp, ?_⟩
  by_cases hps : p.1 = "SOURCE"
  · rw [if_pos hps]
    rw [hpe, if_pos hps] at hq1e
    rw [hq1e, if_neg (by rw [hps]; decide)]
  · rw [if_neg hps]
    rw [hpe, if_neg hps] at hq1e
    by_cases hpt : p.1 = "SINK"
    · rw [if_pos hpt, hq1e, if_pos hpt, hpt]
    · rw [if_neg hpt, hq1e, if_neg hpt]

/- ### Summation helpers -/

theorem sum_map_add {α : Type} {M : Type} [AddCommMonoid M] (l : List α) (f g : α → M) :
    (l.map (fun x => f x + g x)).sum = (l.map f).sum + (l.map g).sum := by
  induction l with
  | nil => simp
  | cons x xs ih => simp [ih]; rw [add_add_add_comm]

theorem sum_map_sub_int {α : Type} (l : List α) (f g : α → Int) :
    (l.map (fun x => f x - g x)).sum = (l.map f).sum - (l.map g).sum := by
  induction l with
  | nil => simp
  | cons x xs ih => simp [ih]; ring

theorem sum_map_natCast {α : Type} (l : List α) (f : α → Nat) :
    (l.map (fun x => ((f x : Nat) : Int))).sum = (((l.map f).sum : Nat) : Int) := by
  induction l with
  | nil => simp
  | cons x xs ih => simp [ih]

theorem sum_ite_eq_single (names : List String) (a : String) (x : Nat)
    (hnd : names.Nodup) (ha : a ∈ names) :
    (names.map (fun n => if a = n then x else 0)).sum = x := by
  induction names with
  | nil => cases ha
  | cons m ms ih =>
    simp only [List.map_cons, List.sum_cons]
    rcases List.mem_cons.1 ha with h | h
    · have hnotin : a ∉ ms := by rw [h]; exact (List.nodup_cons.1 hnd).1
      have hzero : (List.map (fun n => if a = n then x else 0) ms).sum = 0 := by
        apply List.sum_eq_zero
        intro y hy
        obtain ⟨n, hn, hne⟩ := List.mem_map.1 hy
        rw [← hne, if_neg]
        intro he
        exact hnotin (he ▸ hn)
      rw [if_pos h, hzero]
      omega
    · have hne : a ≠ m := by
        intro he
        exact (List.nodup_cons.1 hnd).1 (he ▸ h)
      rw [if_neg hne, ih (List.nodup_cons.1 hnd).2 h]
      omega

/- ### Total excess of a flow is zero -/

theorem sum_edgeInSum (f : String → String → Nat) (es : List Edge) (names : List String)
    (hnd : names.Nodup) (hcl : ∀ e ∈ es, e.dst ∈ names) :
    (names.map (fun n => edgeInSum f n es)).sum = (es.map (fun e => f e.src e.dst)).sum := by
  induction es with
  | nil => simp [edgeInSum]
  | cons e es ih =>
    have hstep : (names.map (fun n => edgeInSum f n (e :: es))).sum
        = (names.map (fun n => if e.dst = n then f e.src e.dst else 0)).sum
          + (names.map (fun n => edgeInSum f n es)).sum := by
      rw [← sum_map_add]
      rfl
    rw [hstep, sum_ite_eq_single names e.dst _ hnd (hcl e (List.mem_cons_self e es)),
      ih (fun e' he' => hcl e' (List.mem_cons_of_mem e he'))]
    simp

theorem sum_edgeOutSum (f : String → String → Nat) (es : List Edge) (names : List String)
    (hnd : names.Nodup) (hcl : ∀ e ∈ es, e.src ∈ names) :
    (names.map (fun n => edgeOutSum f n es)).sum = (es.map (fun e => f e.src e.dst)).sum := by
  induction es with
  | nil => simp [edgeOutSum]
  | cons e es ih =>
    have hstep : (names.map (fun n => edgeOutSum f n (e :: es))).sum
        = (names.map (fun n => if e.src = n then f e.src e.dst else 0)).sum
          + (names.map (fun n => edgeOutSum f n es)).sum := by
      rw [← sum_map_add]
      rfl
    rw [hstep, sum_ite_eq_single names e.src _ hnd (hcl e (List.mem_cons_self e es)),
      ih (fun e' he' => hcl e' (List.mem_cons_of_mem e he'))]
    simp

theorem totalExcess_eq_zero (g : Graph) (f : String → String → Nat)
    (hnd : (nodeNames g).Nodup) (hec : EdgesClosed g) :
    ((nodeNames g).map (fun n => excess g f n)).sum = 0 := by
  have h1 : ((nodeNames g).map (fun n => excess g f n)).sum
      = ((nodeNames g).map (fun n => (inflow g f n : Int))).sum
        - ((nodeNames g).map (fun n => (outflow g f n : Int))).sum := by
    rw [← sum_map_sub_int]
    rfl
  rw [h1, sum_map_natCast, sum_map_natCast]
  unfold inflow outflow
  rw [sum_edgeInSum f g.edges (nodeNames g) hnd (fun e he => (hec e he).2),
    sum_edgeOutSum f g.edges (nodeNames g) hnd (fun e he => (hec e he).1)]
  simp

theorem sum_excess_split (g : Graph) (f : String → String → Nat)
    (hnd : (nodeNames g).Nodup) (hS : "SOURCE" ∈ nodeNames g) (hT : "SINK" ∈ nodeNames g)
    (hcons : Conserved g f "SOURCE" "SINK") :
    ((nodeNames g).map (fun n => excess g f n)).sum
      = excess g f "SOURCE" + excess g f "SINK" := by
  have hTe : "SINK" ∈ (nodeNames g).erase "SOURCE" :=
    (List.mem_erase_of_ne (by decide)).2 hT
  have hperm : List.Perm (nodeNames g)
      ("SOURCE" :: "SINK" :: (((nodeNames g).erase "SOURCE").erase "SINK")) :=
    (List.perm_cons_erase hS).trans (List.Perm.cons _ (List.perm_cons_erase hTe))
  have hsum := (hperm.map (fun n => excess g f n)).sum_eq
  rw [hsum]
  simp only [List.map_cons, List.sum_cons]
  have hrest : ∀ x ∈ (((nodeNames g).erase "SOURCE").erase "SINK").map (fun n => excess g f n),
      x = 0 := by
    intro x hx
    obtain ⟨n, hn, hne⟩ := List.mem_map.1 hx
    have hnd2 : ("SOURCE" :: "SINK" :: (((nodeNames g).erase "SOURCE").erase "SINK")).Nodup :=
      hperm.nodup hnd
    have hnS : n ≠ "SOURCE" := by
      intro he
      exact (List.nodup_cons.1 hnd2).1 (List.mem_cons_of_mem _ (he ▸ hn))
    have hnT : n ≠ "SINK" := by
      intro he
      exact (List.nodup_cons.1 (List.nodup_cons.1 hnd2).2).1 (he ▸ hn)
    have hng : n ∈ nodeNames g :=
      List.mem_of_mem_erase (List.mem_of_mem_erase hn)
    obtain ⟨p, hp, hp1⟩ := List.mem_map.1 hng
    rw [← hne, ← hp1]
    exact hcons p hp (by rw [hp1]; exact hnS) (by rw [hp1]; exact hnT)
  rw [List.sum_eq_zero hrest]
  ring

/- ### Demand satisfaction versus conservation and flow value -/

theorem flowValue_eq_neg_excess (g : Graph) (f : String → String → Nat) (s : String) :
    flowValue g f s = -excess g f s := by
  unfold flowValue excess
  ring

theorem satisfiesDemands_setDemands_iff (g : Graph) (f : String → String → Nat) (F : Nat)
    (hzero : ZeroDemands g) (hS : "SOURCE" ∈ nodeNames g) (hT : "SINK" ∈ nodeNames g) :
    SatisfiesDemands (setDemands g "SOURCE" "SINK" F) f ↔
      (excess g f "SOURCE" = -(F : Int) ∧ excess g f "SINK" = (F : Int) ∧
        Conserved g f "SOURCE" "SINK") := by
  constructor
  · intro hsat
    refine ⟨?_, ?_, ?_⟩
    · have := hsat _ (mem_setDemands_source F hS)
      rwa [excess_setDemands] at this
    · have := hsat _ (mem_setDemands_sink F hT)
      rwa [excess_setDemands] at this
    · intro p hp h1 h2
      have := hsat _ (mem_setDemands_other F hp h1 h2)
      rw [excess_setDemands] at this
      rw [this]
      exact hzero p hp
  · rintro ⟨h1, h2, h3⟩ q hq
    obtain ⟨p, hp, hpe⟩ := mem_setDemands_inv hq
    by_cases hps : p.1 = "SOURCE"
    · rw [hpe, if_pos hps]
      simpa [excess_setDemands, hps] using h1
    · by_cases hpt : p.1 = "SINK"
      · rw [hpe, if_neg hps, if_pos hpt]
        simpa [excess_setDemands, hpt] using h2
      · rw [hpe, if_neg hps, if_neg hpt]
        rw [excess_setDemands]
        rw [hzero p hp]
        exact h3 p hp hps hpt

/-- On any graph built by `populate_graph`, a flow meets the demands set by
`assign_ride_leaders` exactly when it is conserved and has value `F`. -/
theorem demand_iff_value (rides : List String) (leaders_offers : List (String × List String))
    (f : String → String → Nat) (F : Nat) :
    SatisfiesDemands (setDemands (pgOf rides leaders_offers) "SOURCE" "SINK" F) f ↔
      (Conserved (pgOf rides leaders_offers) f "SOURCE" "SINK" ∧
        flowValue (pgOf rides leaders_offers) f "SOURCE" = (F : Int)) := by
  obtain ⟨hzero, hnd, hec, hS, hT⟩ := pg_graphInv rides leaders_offers
  rw [satisfiesDemands_setDemands_iff _ f F hzero hS hT]
  constructor
  · rintro ⟨h1, _, h3⟩
    refine ⟨h3, ?_⟩
    rw [flowValue_eq_neg_excess, h1]
    ring
  · rintro ⟨hcons, hval⟩
    have h1 : excess (pgOf rides leaders_offers) f "SOURCE" = -(F : Int) := by
      have := flowValue_eq_neg_excess (pgOf rides leaders_offers) f "SOURCE"
      rw [hval] at this
      omega
    have h0 := totalExcess_eq_zero (pgOf rides leaders_offers) f hnd hec
    rw [sum_excess_split _ f hnd hS hT hcons] at h0
    exact ⟨h1, by omega, hcons⟩

/- ### The one-ride instance satisfies both solver contracts -/

theorem one_upper (f : String → String → Nat) (hfe : FeasibleFlow oneG f) :
    flowValue oneG f "SOURCE" ≤ (1 : Int) := by
  have hout : outflow oneG f "SOURCE" = f "SOURCE" "R1" := rfl
  have hin : inflow oneG f "SOURCE" = 0 := rfl
  have hcap : f "SOURCE" "R1" ≤ 1 := hfe ⟨"SOURCE", "R1", 1, 0⟩ (by decide)
  unfold flowValue
  rw [hout, hin]
  omega

theorem one_maxflow : MaxFlowSpec oneG "SOURCE" "SINK" 1 := by
  constructor
  · refine ⟨oneFlow, ?_, ?_, ?_⟩
    · unfold FeasibleFlow; decide
    · unfold Conserved; decide
    · decide
  · intro f hfe _
    exact one_upper f hfe

theorem one_mincost : MinCostFlowSpec (setDemands oneG "SOURCE" "SINK" 1) oneFlow := by
  refine ⟨?_, ?_, ?_⟩
  · unfold FeasibleFlow; decide
  · unfold SatisfiesDemands; decide
  · intro f' _ _
    have h : cost (setDemands oneG "SOURCE" "SINK" 1) oneFlow = 0 := by decide
    rw [h]
    exact Nat.zero_le _

theorem one_assign : AssignResult oneG "SOURCE" "SINK" (1, some oneFlow) :=
  ⟨1, one_maxflow, Or.inl ⟨oneFlow, one_mincost, rfl⟩⟩

/-- C1.  For every input, when `assign_ride_leaders` returns a flow (the
non-degraded branch), that flow is feasible and conserved, its value is the
returned `filled_count`, and its total cost is minimal among all feasible
conserved flows of that value on the network built by `populate_graph`. -/
theorem c1_min_cost_optimal (rides : List String) (leaders_offers : List (String × List String))
    (res : Nat × Option (String → String → Nat))
    (h : AssignResult (pgOf rides leaders_offers) "SOURCE" "SINK" res)
    (f : String → String → Nat) (hf : res.2 = some f) :
    FeasibleFlow (pgOf rides leaders_offers) f ∧
    Conserved (pgOf rides leaders_offers) f "SOURCE" "SINK" ∧
    flowValue (pgOf rides leaders_offers) f "SOURCE" = (res.1 : Int) ∧
    (∀ f', FeasibleFlow (pgOf rides leaders_offers) f' →
      Conserved (pgOf rides leaders_offers) f' "SOURCE" "SINK" →
      flowValue (pgOf rides leaders_offers) f' "SOURCE" = (res.1 : Int) →
      cost (pgOf rides leaders_offers) f ≤ cost (pgOf rides leaders_offers) f') := by
  obtain ⟨F, _, hbr⟩ := h
  rcases hbr with ⟨f0, hmc, hres⟩ | ⟨_, hres⟩
  · rw [hres] at hf
    have hff : f0 = f := by
      injection hf
    rw [hff] at hmc
    obtain ⟨hfe, hsat, hmin⟩ := hmc
    have hcv := (demand_iff_value rides leaders_offers f F).1 hsat
    have hres1 : res.1 = F := by rw [hres]
    refine ⟨hfe, hcv.1, by rw [hres1]; exact hcv.2, ?_⟩
    intro f' hfe' hcons' hval'
    have hsat' : SatisfiesDemands (setDemands (pgOf rides leaders_offers) "SOURCE" "SINK" F) f' :=
      (demand_iff_value rides leaders_offers f' F).2 ⟨hcons', by rw [← hres1]; exact hval'⟩
    exact hmin f' hfe' hsat'
  · rw [hres] at hf
    cases hf

/-- Witness for C1 at the one-ride input. -/
theorem c1_min_cost_optimal_witness :
    FeasibleFlow (pgOf oneRides oneOffers) oneFlow ∧
    Conserved (pgOf oneRides oneOffers) oneFlow "SOURCE" "SINK" ∧
    flowValue (pgOf oneRides oneOffers) oneFlow "SOURCE" = ((1 : Nat) : Int) ∧
    (∀ f', FeasibleFlow (pgOf oneRides oneOffers) f' →
      Conserved (pgOf oneRides oneOffers) f' "SOURCE" "SINK" →
      flowValue (pgOf oneRides oneOffers) f' "SOURCE" = ((1 : Nat) : Int) →
      cost (pgOf oneRides oneOffers) oneFlow ≤ cost (pgOf oneRides oneOffers) f') :=
  c1_min_cost_optimal oneRides oneOffers (1, some oneFlow) one_assign oneFlow rfl

/- ### Shape lemmas for the closed-form edge lists -/

theorem synthNames_cons (lo : String × List String) (rest : List (String × List String)) :
    synthNames (lo :: rest)
      = ((lo.1 ++ "_in") :: (lo.1 ++ "_out") :: (List.range lo.2.length).map (slotName lo.1))
        ++ synthNames rest := rfl

theorem mem_synthNames_in {los : List (String × List String)} {lo : String × List String}
    (h : lo ∈ los) : lo.1 ++ "_in" ∈ synthNames los := by
  induction los with
  | nil => cases h
  | cons lo' rest ih =>
    rcases List.mem_cons.1 h with h1 | h1
    · rw [h1]; left
    · right; right
      exact List.mem_append_right _ (ih h1)

theorem mem_synthNames_out {los : List (String × List String)} {lo : String × List String}
    (h : lo ∈ los) : lo.1 ++ "_out" ∈ synthNames los := by
  induction los with
  | nil => cases h
  | cons lo' rest ih =>
    rcases List.mem_cons.1 h with h1 | h1
    · rw [h1]; right; left
    · right; right
      exact List.mem_append_right _ (ih h1)

theorem mem_synthNames_slot {los : List (String × List String)} {lo : String × List String}
    (h : lo ∈ los) {i : Nat} (hi : i < lo.2.length) : slotName lo.1 i ∈ synthNames los := by
  induction los with
  | nil => cases h
  | cons lo' rest ih =>
    rcases List.mem_cons.1 h with rfl | h1
    · right; right
      apply List.mem_append_left
      exact List.mem_map_of_mem _ (List.mem_range.2 hi)
    · right; right
      exact List.mem_append_right _ (ih h1)

theorem srcEdges_mem {rides : List String} {e : Edge} (h : e ∈ srcEdges rides) :
    e.src = "SOURCE" ∧ e.dst ∈ rides ∧ e.capacity = 1 ∧ e.weight = 0 := by
  obtain ⟨r, hr, he⟩ := List.mem_map.1 h
  rw [← he]
  exact ⟨rfl, hr, rfl, rfl⟩

theorem leaderEdges_mem {lo : String × List String} {e : Edge} (h : e ∈ leaderEdges lo) :
    (∃ i < lo.2.length, e = ⟨lo.1 ++ "_in", slotName lo.1 i, 1, 0⟩) ∨
    (∃ i < lo.2.length, e = ⟨slotName lo.1 i, lo.1 ++ "_out", 1, i⟩) ∨
    e = ⟨lo.1 ++ "_out", "SINK", lo.2.length, 0⟩ := by
  unfold leaderEdges at h
  rcases List.mem_append.1 h with h1 | h1
  · obtain ⟨i, hi, he⟩ := List.mem_flatMap.1 h1
    have hiL := List.mem_range.1 hi
    rcases List.mem_cons.1 he with h2 | h2
    · exact Or.inl ⟨i, hiL, h2⟩
    · simp only [List.mem_singleton] at h2
      exact Or.inr (Or.inl ⟨i, hiL, h2⟩)
  · simp only [List.mem_singleton] at h1
    exact Or.inr (Or.inr h1)

theorem leadersEdges_mem {los : List (String × List String)} {e : Edge}
    (h : e ∈ leadersEdges los) : ∃ lo ∈ los, e ∈ leaderEdges lo := by
  induction los with
  | nil => cases h
  | cons lo rest ih =>
    rcases List.mem_append.1 h with h1 | h1
    · exact ⟨lo, List.mem_cons_self _ _, h1⟩
    · obtain ⟨lo', hlo', he⟩ := ih h1
      exact ⟨lo', List.mem_cons_of_mem _ hlo', he⟩

theorem leadersEdges_src_mem {los : List (String × List String)} {e : Edge}
    (h : e ∈ leadersEdges los) : e.src ∈ synthNames los := by
  obtain ⟨lo, hlo, he⟩ := leadersEdges_mem h
  rcases leaderEdges_mem he with ⟨i, hi, he2⟩ | ⟨i, hi, he2⟩ | he2
  · rw [he2]; exact mem_synthNames_in hlo
  · rw [he2]; exact mem_synthNames_slot hlo hi
  · rw [he2]; exact mem_synthNames_out hlo

theorem leadersEdges_dst_mem {los : List (String × List String)} {e : Edge}
    (h : e ∈ leadersEdges los) : e.dst = "SINK" ∨ e.dst ∈ synthNames los := by
  obtain ⟨lo, hlo, he⟩ := leadersEdges_mem h
  rcases leaderEdges_mem he with ⟨i, hi, he2⟩ | ⟨i, hi, he2⟩ | he2
  · right; rw [he2]; exact mem_synthNames_slot hlo hi
  · right; rw [he2]; exact mem_synthNames_out hlo
  · left; rw [he2]

theorem offerEdges_mem {rides : List String} {lo : String × List String} {e : Edge}
    (h : e ∈ offerEdges rides lo) :
    e.src ∈ lo.2 ∧ e.src ∈ rides ∧ e.dst = lo.1 ++ "_in" ∧ e.capacity = 1 ∧ e.weight = 0 := by
  unfold offerEdges at h
  obtain ⟨o, ho, he⟩ := List.mem_map.1 h
  have ho2 := List.mem_filter.1 ho
  rw [← he]
  exact ⟨ho2.1, by simpa using ho2.2, rfl, rfl, rfl⟩

theorem offersEdges_mem {rides : List String} {los : List (String × List String)} {e : Edge}
    (h : e ∈ offersEdges rides los) : ∃ lo ∈ los, e ∈ offerEdges rides lo := by
  induction los with
  | nil => cases h
  | cons lo rest ih =>
    rcases List.mem_append.1 h with h1 | h1
    · exact ⟨lo, List.mem_cons_self _ _, h1⟩
    · obtain ⟨lo', hlo', he⟩ := ih h1
      exact ⟨lo', List.mem_cons_of_mem _ hlo', he⟩

theorem offersEdges_src_mem {rides : List String} {los : List (String × List String)} {e : Edge}
    (h : e ∈ offersEdges rides los) : e.src ∈ rides := by
  obtain ⟨lo, _, he⟩ := offersEdges_mem h
  exact (offerEdges_mem he).2.1

theorem offersEdges_dst_mem {rides : List String} {los : List (String × List String)} {e : Edge}
    (h : e ∈ offersEdges rides los) : e.dst ∈ synthNames los := by
  obtain ⟨lo, hlo, he⟩ := offersEdges_mem h
  rw [(offerEdges_mem he).2.2.1]
  exact mem_synthNames_in hlo

theorem leadersNodes_names (los : List (String × List String)) :
    (leadersNodes los).map Prod.fst = synthNames los := by
  induction los with
  | nil => rfl
  | cons lo rest ih =>
    show ((leaderNodes lo) ++ leadersNodes rest).map Prod.fst = _
    rw [List.map_append, ih]
    unfold leaderNodes
    rw [synthNames_cons]
    simp [List.map_map]

theorem leadersNodes_demand (los : List (String × List String)) :
    ∀ p ∈ leadersNodes los, p.2 = 0 := by
  induction los with
  | nil => intro p hp; cases hp
  | cons lo rest ih =>
    intro p hp
    rcases List.mem_append.1 hp with h1 | h1
    · unfold leaderNodes at h1
      rcases List.mem_cons.1 h1 with h2 | h2
      · rw [h2]
      · rcases List.mem_cons.1 h2 with h3 | h3
        · rw [h3]
        · obtain ⟨i, _, he⟩ := List.mem_map.1 h3
          rw [← he]
    · exact ih p h1

/- ### Name distinctness consequences of a valid input -/

theorem leadersEdges_dst_ne_in (los : List (String × List String)) :
    ∀ lo : String × List String, (synthNames los).Nodup → "SINK" ∉ synthNames los →
    lo ∈ los → ∀ e ∈ leadersEdges los, e.dst ≠ lo.1 ++ "_in" := by
  induction los with
  | nil => intro lo _ _ hlo; cases hlo
  | cons lo' rest ih =>
    intro lo hnd hsink hlo e he
    rw [synthNames_cons] at hnd hsink
    simp only [List.cons_append] at hnd hsink
    obtain ⟨hin_nm, hnd2⟩ := List.nodup_cons.1 hnd
    obtain ⟨hout_nm, hnd3⟩ := List.nodup_cons.1 hnd2
    obtain ⟨hslots_nd, hrest_nd, hdisj⟩ := List.nodup_append.1 hnd3
    simp only [List.mem_cons, List.mem_append, not_or] at hsink
    obtain ⟨hs_in, hs_out, hs_slots, hs_rest⟩ := hsink
    have hin_out : lo'.1 ++ "_in" ≠ lo'.1 ++ "_out" := by
      intro heq
      exact hin_nm (heq ▸ List.mem_cons_self _ _)
    have hin_slots : ∀ i < lo'.2.length, lo'.1 ++ "_in" ≠ slotName lo'.1 i := by
      intro i hi heq
      apply hin_nm
      apply List.mem_cons_of_mem
      apply List.mem_append_left
      rw [heq]
      exact List.mem_map_of_mem _ (List.mem_range.2 hi)
    have hin_rest : lo'.1 ++ "_in" ∉ synthNames rest := by
      intro hmem
      exact hin_nm (List.mem_cons_of_mem _ (List.mem_append_right _ hmem))
    rcases List.mem_append.1 he with h1 | h1
    · rcases leaderEdges_mem h1 with ⟨i, hi, he2⟩ | ⟨i, hi, he2⟩ | he2
      · -- dst is a slot of lo'
        rcases List.mem_cons.1 hlo with rfl | hlo2
        · rw [he2]
          show slotName lo.1 i ≠ lo.1 ++ "_in"
          intro heq
          exact hin_slots i hi heq.symm
        · rw [he2]
          show slotName lo'.1 i ≠ lo.1 ++ "_in"
          intro heq
          apply hdisj (a := slotName lo'.1 i)
          · exact List.mem_map_of_mem _ (List.mem_range.2 hi)
          · rw [heq]; exact mem_synthNames_in hlo2
      · -- dst is the out node of lo'
        rcases List.mem_cons.1 hlo with rfl | hlo2
        · rw [he2]
          show lo.1 ++ "_out" ≠ lo.1 ++ "_in"
          intro heq
          exact hin_out heq.symm
        · rw [he2]
          show lo'.1 ++ "_out" ≠ lo.1 ++ "_in"
          intro heq
          apply hout_nm
          apply List.mem_append_right
          rw [heq]
          exact mem_synthNames_in hlo2
      · -- dst is SINK
        rcases List.mem_cons.1 hlo with rfl | hlo2
        · rw [he2]
          show "SINK" ≠ lo.1 ++ "_in"
          intro heq
          exact hs_in heq
        · rw [he2]
          show "SINK" ≠ lo.1 ++ "_in"
          intro heq
          exact hs_rest (heq ▸ mem_synthNames_in hlo2)
    · rcases List.mem_cons.1 hlo with rfl | hlo2
      · rcases leadersEdges_dst_mem h1 with h2 | h2
        · rw [h2]
          intro heq
          exact hs_in heq
        · intro heq
          exact hin_rest (heq ▸ h2)
      · exact ih lo hrest_nd hs_rest hlo2 e h1

theorem ins_nodup (los : List (String × List String)) (hnd : (synthNames los).Nodup) :
    (los.map (fun lo => lo.1 ++ "_in")).Nodup := by
  induction los with
  | nil => exact List.nodup_nil
  | cons lo rest ih =>
    rw [synthNames_cons] at hnd
    simp only [List.cons_append] at hnd
    obtain ⟨hin_nm, hnd2⟩ := List.nodup_cons.1 hnd
    obtain ⟨_, hnd3⟩ := List.nodup_cons.1 hnd2
    obtain ⟨_, hrest_nd, _⟩ := List.nodup_append.1 hnd3
    rw [List.map_cons]
    refine List.nodup_cons.2 ⟨?_, ih hrest_nd⟩
    intro hmem
    obtain ⟨lo', hlo', he⟩ := List.mem_map.1 hmem
    apply hin_nm
    apply List.mem_cons_of_mem
    apply List.mem_append_right
    exact he ▸ mem_synthNames_in hlo'

theorem in_name_inj (los : List (String × List String)) (hnd : (synthNames los).Nodup) :
    ∀ lo ∈ los, ∀ lo' ∈ los, lo.1 ++ "_in" = lo'.1 ++ "_in" → lo = lo' := by
  have h := ins_nodup los hnd
  intro lo hlo lo' hlo' heq
  exact List.inj_on_of_nodup_map h hlo hlo' heq

/- ### Closed forms of the three construction phases -/

theorem edgesClosed_extend (g : Graph) (X : List (String × Int))
    (h : EdgesClosed g) : EdgesClosed ⟨g.nodes ++ X, g.edges⟩ := by
  intro e he
  have h2 := h e he
  show _ ∈ List.map Prod.fst (g.nodes ++ X) ∧ _ ∈ List.map Prod.fst (g.nodes ++ X)
  rw [List.map_append]
  exact ⟨List.mem_append_left _ h2.1, List.mem_append_left _ h2.2⟩

theorem ridesPhase (rides : List String) :
    ∀ g : Graph, rides.Nodup → (∀ r ∈ rides, r ∉ nodeNames g) →
    "SOURCE" ∈ nodeNames g → "SOURCE" ∉ rides → EdgesClosed g →
    rides.foldl (fun g r => addEdge (addNodeD g r 0) "SOURCE" r 1 0) g
      = ⟨g.nodes ++ rides.map (fun r => (r, 0)), g.edges ++ srcEdges rides⟩ := by
  induction rides with
  | nil =>
    intro g _ _ _ _ _
    show g = _
    cases g
    simp [srcEdges]
  | cons r rs ih =>
    intro g hnd hfresh hS hSr hec
    have hrg : r ∉ nodeNames g := hfresh r (List.mem_cons_self r rs)
    have h1 : addNodeD g r 0 = ⟨g.nodes ++ [(r, 0)], g.edges⟩ := addNodeD_of_not_mem hrg
    have hn1 : nodeNames ⟨g.nodes ++ [(r, 0)], g.edges⟩ = nodeNames g ++ [r] := by
      simp [nodeNames]
    have hS1 : "SOURCE" ∈ nodeNames ⟨g.nodes ++ [(r, 0)], g.edges⟩ := by
      rw [hn1]; exact List.mem_append_left _ hS
    have hr1 : r ∈ nodeNames ⟨g.nodes ++ [(r, 0)], g.edges⟩ := by
      rw [hn1]; simp
    have hp : ("SOURCE", r) ∉ edgePairs ⟨g.nodes ++ [(r, 0)], g.edges⟩ := by
      have : ("SOURCE", r) ∉ edgePairs g := not_mem_edgePairs_of_dst hec hrg
      simpa [edgePairs] using this
    have h2 : addEdge ⟨g.nodes ++ [(r, 0)], g.edges⟩ "SOURCE" r 1 0
        = ⟨g.nodes ++ [(r, 0)], g.edges ++ [⟨"SOURCE", r, 1, 0⟩]⟩ :=
      addEdge_append 1 0 hS1 hr1 hp
    have hec2 : EdgesClosed ⟨g.nodes ++ [(r, 0)], g.edges ++ [⟨"SOURCE", r, 1, 0⟩]⟩ := by
      intro e he
      rcases List.mem_append.1 he with h3 | h3
      · exact edgesClosed_extend g [(r, 0)] hec e h3
      · simp only [List.mem_singleton] at h3
        rw [h3]
        exact ⟨hS1, hr1⟩
    have hfresh2 : ∀ r' ∈ rs,
        r' ∉ nodeNames ⟨g.nodes ++ [(r, 0)], g.edges ++ [⟨"SOURCE", r, 1, 0⟩]⟩ := by
      intro r' hr'
      show r' ∉ List.map Prod.fst (g.nodes ++ [(r, 0)])
      rw [List.map_append]
      simp only [List.mem_append, List.map_cons, List.map_nil, List.mem_singleton, not_or]
      refine ⟨hfresh r' (List.mem_cons_of_mem r hr'), ?_⟩
      intro he
      exact (List.nodup_cons.1 hnd).1 (he ▸ hr')
    have hS2 : "SOURCE" ∈ nodeNames ⟨g.nodes ++ [(r, 0)], g.edges ++ [⟨"SOURCE", r, 1, 0⟩]⟩ := by
      show "SOURCE" ∈ List.map Prod.fst (g.nodes ++ [(r, 0)])
      rw [List.map_append]
      exact List.mem_append_left _ hS
    rw [List.foldl_cons, h1, h2]
    rw [ih _ (List.nodup_cons.1 hnd).2 hfresh2 hS2
      (fun hmem => hSr (List.mem_cons_of_mem r hmem)) hec2]
    show Graph.mk _ _ = Graph.mk _ _
    rw [List.append_assoc, List.append_assoc]
    rfl

theorem slotPhase (l : String) (is : List Nat) :
    ∀ g : Graph, (is.map (slotName l)).Nodup →
    (∀ i ∈ is, slotName l i ∉ nodeNames g) →
    (∀ i ∈ is, slotName l i ≠ l ++ "_in") →
    (∀ i ∈ is, slotName l i ≠ l ++ "_out") →
    l ++ "_in" ∈ nodeNames g → l ++ "_out" ∈ nodeNames g → EdgesClosed g →
    is.foldl (fun g i => addEdge (addEdge (addNodeD g (slotName l i) 0)
        (l ++ "_in") (slotName l i) 1 0) (slotName l i) (l ++ "_out") 1 i) g
      = ⟨g.nodes ++ is.map (fun i => (slotName l i, 0)),
         g.edges ++ is.flatMap (fun i =>
           [⟨l ++ "_in", slotName l i, 1, 0⟩, ⟨slotName l i, l ++ "_out", 1, i⟩])⟩ := by
  induction is with
  | nil =>
    intro g _ _ _ _ _ _ _
    show g = _
    cases g
    simp
  | cons i is ih =>
    intro g hnd hfresh hne_in hne_out hin hout hec
    have hfi : slotName l i ∉ nodeNames g := hfresh i (List.mem_cons_self i is)
    have h1 : addNodeD g (slotName l i) 0 = ⟨g.nodes ++ [(slotName l i, 0)], g.edges⟩ :=
      addNodeD_of_not_mem hfi
    have hin1 : l ++ "_in" ∈ nodeNames ⟨g.nodes ++ [(slotName l i, 0)], g.edges⟩ := by
      show _ ∈ List.map Prod.fst (g.nodes ++ [(slotName l i, 0)])
      rw [List.map_append]
      exact List.mem_append_left _ hin
    have hout1 : l ++ "_out" ∈ nodeNames ⟨g.nodes ++ [(slotName l i, 0)], g.edges⟩ := by
      show _ ∈ List.map Prod.fst (g.nodes ++ [(slotName l i, 0)])
      rw [List.map_append]
      exact List.mem_append_left _ hout
    have hslot1 : slotName l i ∈ nodeNames ⟨g.nodes ++ [(slotName l i, 0)], g.edges⟩ := by
      show _ ∈ List.map Prod.fst (g.nodes ++ [(slotName l i, 0)])
      rw [List.map_append]
      apply List.mem_append_right
      simp
    have hp1 : (l ++ "_in", slotName l i) ∉ edgePairs ⟨g.nodes ++ [(slotName l i, 0)], g.edges⟩ := by
      have : (l ++ "_in", slotName l i) ∉ edgePairs g := not_mem_edgePairs_of_dst hec hfi
      simpa [edgePairs] using this
    have h2 : addEdge ⟨g.nodes ++ [(slotName l i, 0)], g.edges⟩ (l ++ "_in") (slotName l i) 1 0
        = ⟨g.nodes ++ [(slotName l i, 0)],
           g.edges ++ [⟨l ++ "_in", slotName l i, 1, 0⟩]⟩ :=
      addEdge_append 1 0 hin1 hslot1 hp1
    have hp2 : (slotName l i, l ++ "_out") ∉ edgePairs
        ⟨g.nodes ++ [(slotName l i, 0)], g.edges ++ [⟨l ++ "_in", slotName l i, 1, 0⟩]⟩ := by
      intro hmem
      simp only [edgePairs, List.map_append, List.mem_append] at hmem
      rcases hmem with h3 | h3
      · exact not_mem_edgePairs_of_src hec hfi h3
      · simp only [List.map_cons, List.map_nil, List.mem_singleton, Prod.mk.injEq] at h3
        exact hne_in i (List.mem_cons_self i is) h3.1
    have h3 : addEdge ⟨g.nodes ++ [(slotName l i, 0)],
          g.edges ++ [⟨l ++ "_in", slotName l i, 1, 0⟩]⟩ (slotName l i) (l ++ "_out") 1 i
        = ⟨g.nodes ++ [(slotName l i, 0)],
           (g.edges ++ [⟨l ++ "_in", slotName l i, 1, 0⟩])
             ++ [⟨slotName l i, l ++ "_out", 1, i⟩]⟩ :=
      addEdge_append 1 i hslot1 hout1 hp2
    have hec3 : EdgesClosed ⟨g.nodes ++ [(slotName l i, 0)],
        (g.edges ++ [⟨l ++ "_in", slotName l i, 1, 0⟩])
          ++ [⟨slotName l i, l ++ "_out", 1, i⟩]⟩ := by
      intro e he
      rcases List.mem_append.1 he with h4 | h4
      · rcases List.mem_append.1 h4 with h5 | h5
        · exact edgesClosed_extend g [(slotName l i, 0)] hec e h5
        · simp only [List.mem_singleton] at h5
          rw [h5]
          exact ⟨hin1, hslot1⟩
      · simp only [List.mem_singleton] at h4
        rw [h4]
        exact ⟨hslot1, hout1⟩
    have hfresh2 : ∀ j ∈ is, slotName l j ∉ nodeNames ⟨g.nodes ++ [(slotName l i, 0)],
        (g.edges ++ [⟨l ++ "_in", slotName l i, 1, 0⟩])
          ++ [⟨slotName l i, l ++ "_out", 1, i⟩]⟩ := by
      intro j hj
      show slotName l j ∉ List.map Prod.fst (g.nodes ++ [(slotName l i, 0)])
      rw [List.map_append]
      simp only [List.mem_append, List.map_cons, List.map_nil, List.mem_singleton, not_or]
      refine ⟨hfresh j (List.mem_cons_of_mem i hj), ?_⟩
      intro he
      exact (List.nodup_cons.1 hnd).1 (he ▸ List.mem_map_of_mem (slotName l) hj)
    have hin2 : l ++ "_in" ∈ nodeNames ⟨g.nodes ++ [(slotName l i, 0)],
        (g.edges ++ [⟨l ++ "_in", slotName l i, 1, 0⟩])
          ++ [⟨slotName l i, l ++ "_out", 1, i⟩]⟩ := hin1
    have hout2 : l ++ "_out" ∈ nodeNames ⟨g.nodes ++ [(slotName l i, 0)],
        (g.edges ++ [⟨l ++ "_in", slotName l i, 1, 0⟩])
          ++ [⟨slotName l i, l ++ "_out", 1, i⟩]⟩ := hout1
    rw [List.foldl_cons, h1, h2, h3]
    rw [ih _ (List.nodup_cons.1 hnd).2 hfresh2
      (fun j hj => hne_in j (List.mem_cons_of_mem i hj))
      (fun j hj => hne_out j (List.mem_cons_of_mem i hj)) hin2 hout2 hec3]
    show Graph.mk _ _ = Graph.mk _ _
    rw [List.append_assoc, List.append_assoc, List.append_assoc]
    rfl

theorem leadersPhase (los : List (String × List String)) :
    ∀ g : Graph, (synthNames los).Nodup →
    (∀ s ∈ synthNames los, s ∉ nodeNames g) →
    "SINK" ∈ nodeNames g → "SINK" ∉ synthNames los → EdgesClosed g →
    los.foldl (fun g lo => addEdge ((List.range lo.2.length).foldl
        (fun g i => addEdge (addEdge (addNodeD g (slotName lo.1 i) 0)
          (lo.1 ++ "_in") (slotName lo.1 i) 1 0) (slotName lo.1 i) (lo.1 ++ "_out") 1 i)
        (addNodeD (addNodeD g (lo.1 ++ "_in") 0) (lo.1 ++ "_out") 0))
        (lo.1 ++ "_out") "SINK" lo.2.length 0) g
      = ⟨g.nodes ++ leadersNodes los, g.edges ++ leadersEdges los⟩ := by
  induction los with
  | nil =>
    intro g _ _ _ _ _
    show g = _
    cases g
    simp [leadersNodes, leadersEdges]
  | cons lo rest ih =>
    intro g hnd hfresh hsinkmem hsink hec
    rw [synthNames_cons] at hnd hsink hfresh
    simp only [List.cons_append] at hnd hsink hfresh
    obtain ⟨hin_nm, hnd2⟩ := List.nodup_cons.1 hnd
    obtain ⟨hout_nm, hnd3⟩ := List.nodup_cons.1 hnd2
    obtain ⟨hslots_nd, hrest_nd, hdisj⟩ := List.nodup_append.1 hnd3
    simp only [List.mem_cons, List.mem_append, not_or] at hsink
    obtain ⟨hs_in, hs_out, hs_slots, hs_rest⟩ := hsink
    have hfrin : lo.1 ++ "_in" ∉ nodeNames g := hfresh _ (List.mem_cons_self _ _)
    have hfrout : lo.1 ++ "_out" ∉ nodeNames g :=
      hfresh _ (List.mem_cons_of_mem _ (List.mem_cons_self _ _))
    have hfrslot : ∀ i < lo.2.length, slotName lo.1 i ∉ nodeNames g := by
      intro i hi
      apply hfresh
      apply List.mem_cons_of_mem
      apply List.mem_cons_of_mem
      exact List.mem_append_left _ (List.mem_map_of_mem _ (List.mem_range.2 hi))
    have hin_ne_out : lo.1 ++ "_in" ≠ lo.1 ++ "_out" := by
      intro he
      exact hin_nm (he ▸ List.mem_cons_self _ _)
    have hslot_ne_in : ∀ i < lo.2.length, slotName lo.1 i ≠ lo.1 ++ "_in" := by
      intro i hi he
      apply hin_nm
      apply List.mem_cons_of_mem
      apply List.mem_append_left
      rw [← he]
      exact List.mem_map_of_mem _ (List.mem_range.2 hi)
    have hslot_ne_out : ∀ i < lo.2.length, slotName lo.1 i ≠ lo.1 ++ "_out" := by
      intro i hi he
      apply hout_nm
      apply List.mem_append_left
      rw [← he]
      exact List.mem_map_of_mem _ (List.mem_range.2 hi)
    have h1 : addNodeD g (lo.1 ++ "_in") 0 = ⟨g.nodes ++ [(lo.1 ++ "_in", 0)], g.edges⟩ :=
      addNodeD_of_not_mem hfrin
    have hfrout1 : lo.1 ++ "_out" ∉ nodeNames ⟨g.nodes ++ [(lo.1 ++ "_in", 0)], g.edges⟩ := by
      show _ ∉ List.map Prod.fst (g.nodes ++ [(lo.1 ++ "_in", 0)])
      rw [List.map_append]
      simp only [List.mem_append, List.map_cons, List.map_nil, List.mem_singleton, not_or]
      exact ⟨hfrout, fun he => hin_ne_out he.symm⟩
    have h2 : addNodeD ⟨g.nodes ++ [(lo.1 ++ "_in", 0)], g.edges⟩ (lo.1 ++ "_out") 0
        = ⟨(g.nodes ++ [(lo.1 ++ "_in", 0)]) ++ [(lo.1 ++ "_out", 0)], g.edges⟩ :=
      addNodeD_of_not_mem hfrout1
    have hin2 : lo.1 ++ "_in"
        ∈ nodeNames ⟨(g.nodes ++ [(lo.1 ++ "_in", 0)]) ++ [(lo.1 ++ "_out", 0)], g.edges⟩ := by
      show _ ∈ List.map Prod.fst ((g.nodes ++ [(lo.1 ++ "_in", 0)]) ++ [(lo.1 ++ "_out", 0)])
      rw [List.map_append, List.map_append]
      apply List.mem_append_left
      apply List.mem_append_right
      simp
    have hout2 : lo.1 ++ "_out"
        ∈ nodeNames ⟨(g.nodes ++ [(lo.1 ++ "_in", 0)]) ++ [(lo.1 ++ "_out", 0)], g.edges⟩ := by
      show _ ∈ List.map Prod.fst ((g.nodes ++ [(lo.1 ++ "_in", 0)]) ++ [(lo.1 ++ "_out", 0)])
      rw [List.map_append]
      apply List.mem_append_right
      simp
    have hslots2 : ∀ i ∈ List.range lo.2.length, slotName lo.1 i
        ∉ nodeNames ⟨(g.nodes ++ [(lo.1 ++ "_in", 0)]) ++ [(lo.1 ++ "_out", 0)], g.edges⟩ := by
      intro i hi
      have hiL := List.mem_range.1 hi
      show _ ∉ List.map Prod.fst ((g.nodes ++ [(lo.1 ++ "_in", 0)]) ++ [(lo.1 ++ "_out", 0)])
      rw [List.map_append, List.map_append]
      simp only [List.mem_append, List.map_cons, List.map_nil, List.mem_singleton, not_or]
      exact ⟨⟨hfrslot i hiL, hslot_ne_in i hiL⟩, hslot_ne_out i hiL⟩
    have hec2 : EdgesClosed ⟨(g.nodes ++ [(lo.1 ++ "_in", 0)]) ++ [(lo.1 ++ "_out", 0)], g.edges⟩ :=
      edgesClosed_extend ⟨g.nodes ++ [(lo.1 ++ "_in", 0)], g.edges⟩ [(lo.1 ++ "_out", 0)]
        (edgesClosed_extend g [(lo.1 ++ "_in", 0)] hec)
    have h3 := slotPhase lo.1 (List.range lo.2.length)
      ⟨(g.nodes ++ [(lo.1 ++ "_in", 0)]) ++ [(lo.1 ++ "_out", 0)], g.edges⟩
      hslots_nd hslots2
      (fun i hi => hslot_ne_in i (List.mem_range.1 hi))
      (fun i hi => hslot_ne_out i (List.mem_range.1 hi))
      hin2 hout2 hec2
    rw [List.foldl_cons, h1, h2, h3]
    have hout3 : lo.1 ++ "_out" ∈ nodeNames
        ⟨((g.nodes ++ [(lo.1 ++ "_in", 0)]) ++ [(lo.1 ++ "_out", 0)])
            ++ (List.range lo.2.length).map (fun i => (slotName lo.1 i, 0)),
          g.edges ++ (List.range lo.2.length).flatMap (fun i =>
            [⟨lo.1 ++ "_in", slotName lo.1 i, 1, 0⟩,
             ⟨slotName lo.1 i, lo.1 ++ "_out", 1, i⟩])⟩ := by
      show _ ∈ List.map Prod.fst (_ ++ _)
      rw [List.map_append]
      exact List.mem_append_left _ hout2
    have hsink3 : "SINK" ∈ nodeNames
        ⟨((g.nodes ++ [(lo.1 ++ "_in", 0)]) ++ [(lo.1 ++ "_out", 0)])
            ++ (List.range lo.2.length).map (fun i => (slotName lo.1 i, 0)),
          g.edges ++ (List.range lo.2.length).flatMap (fun i =>
            [⟨lo.1 ++ "_in", slotName lo.1 i, 1, 0⟩,
             ⟨slotName lo.1 i, lo.1 ++ "_out", 1, i⟩])⟩ := by
      show _ ∈ List.map Prod.fst (_ ++ _)
      rw [List.map_append, List.map_append, List.map_append]
      apply List.mem_append_left
      apply List.mem_append_left
      exact List.mem_append_left _ hsinkmem
    have hp3 : (lo.1 ++ "_out", "SINK") ∉ edgePairs
        ⟨((g.nodes ++ [(lo.1 ++ "_in", 0)]) ++ [(lo.1 ++ "_out", 0)])
            ++ (List.range lo.2.length).map (fun i => (slotName lo.1 i, 0)),
          g.edges ++ (List.range lo.2.length).flatMap (fun i =>
            [⟨lo.1 ++ "_in", slotName lo.1 i, 1, 0⟩,
             ⟨slotName lo.1 i, lo.1 ++ "_out", 1, i⟩])⟩ := by
      intro hmem
      simp only [edgePairs, List.map_append, List.mem_append] at hmem
      rcases hmem with h4 | h4
      · exact not_mem_edgePairs_of_src hec hfrout h4
      · obtain ⟨e, he, hpe⟩ := List.mem_map.1 h4
        obtain ⟨i, hi, he2⟩ := List.mem_flatMap.1 he
        have hiL := List.mem_range.1 hi
        rcases List.mem_cons.1 he2 with h5 | h5
        · rw [h5] at hpe
          simp only [Prod.mk.injEq] at hpe
          exact hin_ne_out hpe.1
        · simp only [List.mem_singleton] at h5
          rw [h5] at hpe
          simp only [Prod.mk.injEq] at hpe
          exact hslot_ne_out i hiL hpe.1
    have h4 := addEdge_append lo.2.length 0 hout3 hsink3 hp3
    rw [h4]
    have hec4 : EdgesClosed ⟨((g.nodes ++ [(lo.1 ++ "_in", 0)]) ++ [(lo.1 ++ "_out", 0)])
            ++ (List.range lo.2.length).map (fun i => (slotName lo.1 i, 0)),
          (g.edges ++ (List.range lo.2.length).flatMap (fun i =>
            [⟨lo.1 ++ "_in", slotName lo.1 i, 1, 0⟩,
             ⟨slotName lo.1 i, lo.1 ++ "_out", 1, i⟩]))
            ++ [⟨lo.1 ++ "_out", "SINK", lo.2.length, 0⟩]⟩ := by
      intro e he
      have hslotmem : ∀ i < lo.2.length, slotName lo.1 i ∈ List.map Prod.fst
          (((g.nodes ++ [(lo.1 ++ "_in", 0)]) ++ [(lo.1 ++ "_out", 0)])
            ++ (List.range lo.2.length).map (fun i => (slotName lo.1 i, 0))) := by
        intro i hi
        rw [List.map_append]
        apply List.mem_append_right
        rw [List.map_map]
        exact List.mem_map_of_mem _ (List.mem_range.2 hi)
      rcases List.mem_append.1 he with h5 | h5
      · rcases List.mem_append.1 h5 with h6 | h6
        · have h7 := hec e h6
          constructor
          · show _ ∈ List.map Prod.fst (_ ++ _)
            rw [List.map_append, List.map_append, List.map_append]
            apply List.mem_append_left
            apply List.mem_append_left
            exact List.mem_append_left _ h7.1
          · show _ ∈ List.map Prod.fst (_ ++ _)
            rw [List.map_append, List.map_append, List.map_append]
            apply List.mem_append_left
            apply List.mem_append_left
            exact List.mem_append_left _ h7.2
        · obtain ⟨i, hi, he2⟩ := List.mem_flatMap.1 h6
          have hiL := List.mem_range.1 hi
          rcases List.mem_cons.1 he2 with h7 | h7
          · rw [h7]
            refine ⟨?_, hslotmem i hiL⟩
            show _ ∈ List.map Prod.fst (_ ++ _)
            rw [List.map_append]
            exact List.mem_append_left _ hin2
          · simp only [List.mem_singleton] at h7
            rw [h7]
            refine ⟨hslotmem i hiL, ?_⟩
            show _ ∈ List.map Prod.fst (_ ++ _)
            rw [List.map_append]
            exact List.mem_append_left _ hout2
      · simp only [List.mem_singleton] at h5
        rw [h5]
        exact ⟨hout3, hsink3⟩
    have hfresh4 : ∀ s ∈ synthNames rest, s ∉ nodeNames
        ⟨((g.nodes ++ [(lo.1 ++ "_in", 0)]) ++ [(lo.1 ++ "_out", 0)])
            ++ (List.range lo.2.length).map (fun i => (slotName lo.1 i, 0)),
          (g.edges ++ (List.range lo.2.length).flatMap (fun i =>
            [⟨lo.1 ++ "_in", slotName lo.1 i, 1, 0⟩,
             ⟨slotName lo.1 i, lo.1 ++ "_out", 1, i⟩]))
            ++ [⟨lo.1 ++ "_out", "SINK", lo.2.length, 0⟩]⟩ := by
      intro s hs
      show s ∉ List.map Prod.fst (_ ++ _)
      rw [List.map_append, List.map_append, List.map_append]
      simp only [List.mem_append, List.map_cons, List.map_nil, List.mem_singleton, not_or,
        List.map_map]
      refine ⟨⟨⟨?_, ?_⟩, ?_⟩, ?_⟩
      · exact hfresh s (List.mem_cons_of_mem _ (List.mem_cons_of_mem _
          (List.mem_append_right _ hs)))
      · intro he
        exact hin_nm (List.mem_cons_of_mem _ (List.mem_append_right _ (he ▸ hs)))
      · intro he
        exact hout_nm (List.mem_append_right _ (he ▸ hs))
      · intro hmem
        obtain ⟨i, _, he⟩ := List.mem_map.1 hmem
        apply hdisj (a := s)
        · rw [← he]
          exact List.mem_map_of_mem _ ‹i ∈ List.range lo.2.length›
        · exact hs
    rw [ih _ hrest_nd hfresh4 hsink3 hs_rest hec4]
    show Graph.mk _ _ = Graph.mk _ _
    have hnodes : (((g.nodes ++ [(lo.1 ++ "_in", 0)]) ++ [(lo.1 ++ "_out", 0)])
          ++ (List.range lo.2.length).map (fun i => (slotName lo.1 i, 0)))
          ++ leadersNodes rest
        = g.nodes ++ leadersNodes (lo :: rest) := by
      show _ = g.nodes ++ (leaderNodes lo ++ leadersNodes rest)
      unfold leaderNodes
      simp [List.append_assoc]
    have hedges : ((g.edges ++ (List.range lo.2.length).flatMap (fun i =>
            [⟨lo.1 ++ "_in", slotName lo.1 i, 1, 0⟩,
             ⟨slotName lo.1 i, lo.1 ++ "_out", 1, i⟩]))
            ++ [⟨lo.1 ++ "_out", "SINK", lo.2.length, 0⟩])
          ++ leadersEdges rest
        = g.edges ++ leadersEdges (lo :: rest) := by
      show _ = g.edges ++ (leaderEdges lo ++ leadersEdges rest)
      unfold leaderEdges
      simp [List.append_assoc]
    rw [hnodes, hedges]

theorem offersPhaseOne (rides : List String) (vin : String) (os : List String) :
    ∀ g : Graph, os.Nodup →
    (∀ o ∈ os, o ∈ rides → o ∈ nodeNames g) →
    vin ∈ nodeNames g →
    (∀ o ∈ os, (o, vin) ∉ edgePairs g) →
    os.foldl (fun g o => if o ∈ rides then addEdge g o vin 1 0 else g) g
      = ⟨g.nodes, g.edges ++ (os.filter (fun o => o ∈ rides)).map (fun o => ⟨o, vin, 1, 0⟩)⟩ := by
  induction os with
  | nil =>
    intro g _ _ _ _
    show g = _
    cases g
    simp
  | cons o os ih =>
    intro g hnd hmem hvin hp
    rw [List.foldl_cons]
    by_cases ho : o ∈ rides
    · rw [if_pos ho]
      have h1 : addEdge g o vin 1 0 = ⟨g.nodes, g.edges ++ [⟨o, vin, 1, 0⟩]⟩ :=
        addEdge_append 1 0 (hmem o (List.mem_cons_self o os) ho) hvin
          (hp o (List.mem_cons_self o os))
      rw [h1]
      have hmem2 : ∀ o' ∈ os, o' ∈ rides → o' ∈ nodeNames ⟨g.nodes, g.edges ++ [⟨o, vin, 1, 0⟩]⟩ :=
        fun o' ho' hr => hmem o' (List.mem_cons_of_mem o ho') hr
      have hvin2 : vin ∈ nodeNames ⟨g.nodes, g.edges ++ [⟨o, vin, 1, 0⟩]⟩ := hvin
      have hp2 : ∀ o' ∈ os, (o', vin) ∉ edgePairs ⟨g.nodes, g.edges ++ [⟨o, vin, 1, 0⟩]⟩ := by
        intro o' ho' hmem3
        simp only [edgePairs, List.map_append, List.mem_append] at hmem3
        rcases hmem3 with h2 | h2
        · exact hp o' (List.mem_cons_of_mem o ho') h2
        · simp only [List.map_cons, List.map_nil, List.mem_singleton, Prod.mk.injEq] at h2
          apply (List.nodup_cons.1 hnd).1
          rw [← h2.1]
          exact ho'
      rw [ih _ (List.nodup_cons.1 hnd).2 hmem2 hvin2 hp2]
      show Graph.mk _ _ = Graph.mk _ _
      have hfil : (o :: os).filter (fun o => o ∈ rides)
          = o :: os.filter (fun o => o ∈ rides) := by
        rw [List.filter_cons]
        simp [ho]
      rw [hfil, List.map_cons, List.append_assoc]
      rfl
    · rw [if_neg ho]
      rw [ih _ (List.nodup_cons.1 hnd).2
        (fun o' ho' hr => hmem o' (List.mem_cons_of_mem o ho') hr) hvin
        (fun o' ho' => hp o' (List.mem_cons_of_mem o ho'))]
      have hfil : (o :: os).filter (fun o => o ∈ rides)
          = os.filter (fun o => o ∈ rides) := by
        rw [List.filter_cons]
        simp [ho]
      rw [hfil]

theorem offersPhase (rides : List String) (los : List (String × List String)) :
    ∀ g : Graph,
    (∀ lo ∈ los, lo.2.Nodup) →
    (∀ lo ∈ los, ∀ o ∈ lo.2, o ∈ rides → o ∈ nodeNames g) →
    (∀ lo ∈ los, lo.1 ++ "_in" ∈ nodeNames g) →
    (∀ lo ∈ los, ∀ o ∈ lo.2, (o, lo.1 ++ "_in") ∉ edgePairs g) →
    (los.map (fun lo => lo.1 ++ "_in")).Nodup →
    los.foldl (fun g lo => lo.2.foldl
        (fun g o => if o ∈ rides then addEdge g o (lo.1 ++ "_in") 1 0 else g) g) g
      = ⟨g.nodes, g.edges ++ offersEdges rides los⟩ := by
  induction los with
  | nil =>
    intro g _ _ _ _ _
    show g = _
    cases g
    simp [offersEdges]
  | cons lo rest ih =>
    intro g hosnd hmem hins hp hinsnd
    rw [List.foldl_cons]
    have h1 := offersPhaseOne rides (lo.1 ++ "_in") lo.2 g
      (hosnd lo (List.mem_cons_self lo rest))
      (hmem lo (List.mem_cons_self lo rest))
      (hins lo (List.mem_cons_self lo rest))
      (hp lo (List.mem_cons_self lo rest))
    rw [h1]
    have hmem2 : ∀ lo' ∈ rest, ∀ o ∈ lo'.2, o ∈ rides → o ∈ nodeNames
        ⟨g.nodes, g.edges ++ (lo.2.filter (fun o => o ∈ rides)).map
          (fun o => ⟨o, lo.1 ++ "_in", 1, 0⟩)⟩ :=
      fun lo' hlo' o ho hr => hmem lo' (List.mem_cons_of_mem lo hlo') o ho hr
    have hins2 : ∀ lo' ∈ rest, lo'.1 ++ "_in" ∈ nodeNames
        ⟨g.nodes, g.edges ++ (lo.2.filter (fun o => o ∈ rides)).map
          (fun o => ⟨o, lo.1 ++ "_in", 1, 0⟩)⟩ :=
      fun lo' hlo' => hins lo' (List.mem_cons_of_mem lo hlo')
    have hp2 : ∀ lo' ∈ rest, ∀ o ∈ lo'.2, (o, lo'.1 ++ "_in") ∉ edgePairs
        ⟨g.nodes, g.edges ++ (lo.2.filter (fun o => o ∈ rides)).map
          (fun o => ⟨o, lo.1 ++ "_in", 1, 0⟩)⟩ := by
      intro lo' hlo' o ho hmem3
      simp only [edgePairs, List.map_append, List.mem_append] at hmem3
      rcases hmem3 with h2 | h2
      · exact hp lo' (List.mem_cons_of_mem lo hlo') o ho h2
      · rw [List.map_map] at h2
        obtain ⟨o', _, he⟩ := List.mem_map.1 h2
        simp only [Function.comp, Prod.mk.injEq] at he
        apply (List.nodup_cons.1 hinsnd).1
        show lo.1 ++ "_in" ∈ List.map (fun lo => lo.1 ++ "_in") rest
        rw [he.2]
        exact List.mem_map_of_mem _ hlo'
    rw [ih _ (fun lo' hlo' => hosnd lo' (List.mem_cons_of_mem lo hlo'))
      hmem2 hins2 hp2 (List.nodup_cons.1 hinsnd).2]
    show Graph.mk _ _ = Graph.mk _ _
    rw [List.append_assoc]
    rfl

/-- On valid input, `populate_graph` produces exactly the closed-form node
and edge lists: all ride edges, all leveling sub-networks, and one offer edge
per (offered ride, leader) pair whose ride exists — invalid offers are
dropped without affecting anything else. -/
theorem pg_char (rides : List String) (los : List (String × List String))
    (hv : ValidInput rides los) :
    pgOf rides los = ⟨pgNodes rides los, pgEdges rides los⟩ := by
  obtain ⟨hrnd, hlnd, hsynnd, hosnd, hSr, hTr, hSsyn, hTsyn, hdisj, _⟩ := hv
  have hfresh1 : ∀ r ∈ rides, r ∉ nodeNames (⟨[("SOURCE", 0), ("SINK", 0)], []⟩ : Graph) := by
    intro r hr hmem
    simp only [nodeNames, List.map_cons, List.map_nil, List.mem_cons,
      List.not_mem_nil, or_false] at hmem
    rcases hmem with h | h
    · exact hSr (h ▸ hr)
    · exact hTr (h ▸ hr)
  have hS0 : "SOURCE" ∈ nodeNames (⟨[("SOURCE", 0), ("SINK", 0)], []⟩ : Graph) := by decide
  have hec0 : EdgesClosed (⟨[("SOURCE", 0), ("SINK", 0)], []⟩ : Graph) := by
    intro e he
    exact absurd he (List.not_mem_nil e)
  have h1 := ridesPhase rides ⟨[("SOURCE", 0), ("SINK", 0)], []⟩ hrnd hfresh1 hS0 hSr hec0
  have hnames1 : nodeNames (⟨[("SOURCE", 0), ("SINK", 0)] ++ rides.map (fun r => (r, 0)),
      [] ++ srcEdges rides⟩ : Graph) = "SOURCE" :: "SINK" :: rides := by
    show List.map Prod.fst _ = _
    rw [List.map_append, List.map_map]
    rw [show (Prod.fst ∘ fun r : String => (r, (0 : Int))) = id from rfl, List.map_id]
    rfl
  have hfresh2 : ∀ s ∈ synthNames los, s ∉ nodeNames
      (⟨[("SOURCE", 0), ("SINK", 0)] ++ rides.map (fun r => (r, 0)),
        [] ++ srcEdges rides⟩ : Graph) := by
    intro s hs hmem
    rw [hnames1] at hmem
    rcases List.mem_cons.1 hmem with h | h
    · exact hSsyn (h ▸ hs)
    · rcases List.mem_cons.1 h with h2 | h2
      · exact hTsyn (h2 ▸ hs)
      · exact hdisj s h2 hs
  have hT1 : "SINK" ∈ nodeNames (⟨[("SOURCE", 0), ("SINK", 0)] ++ rides.map (fun r => (r, 0)),
      [] ++ srcEdges rides⟩ : Graph) := by
    rw [hnames1]
    exact List.mem_cons_of_mem _ (List.mem_cons_self _ _)
  have hec1 : EdgesClosed (⟨[("SOURCE", 0), ("SINK", 0)] ++ rides.map (fun r => (r, 0)),
      [] ++ srcEdges rides⟩ : Graph) := by
    intro e he
    obtain ⟨hes, hed, _, _⟩ := srcEdges_mem (show e ∈ srcEdges rides from he)
    refine ⟨?_, ?_⟩ <;> rw [hnames1]
    · rw [hes]
      exact List.mem_cons_self _ _
    · exact List.mem_cons_of_mem _ (List.mem_cons_of_mem _ hed)
  have h2 := leadersPhase los ⟨[("SOURCE", 0), ("SINK", 0)] ++ rides.map (fun r => (r, 0)),
      [] ++ srcEdges rides⟩ hsynnd hfresh2 hT1 hTsyn hec1
  have hnames2 : nodeNames (⟨([("SOURCE", 0), ("SINK", 0)] ++ rides.map (fun r => (r, 0)))
        ++ leadersNodes los, ([] ++ srcEdges rides) ++ leadersEdges los⟩ : Graph)
      = ("SOURCE" :: "SINK" :: rides) ++ synthNames los := by
    show List.map Prod.fst (_ ++ _) = _
    rw [List.map_append, leadersNodes_names]
    have h0 : List.map Prod.fst
        ([("SOURCE", (0 : Int)), ("SINK", (0 : Int))] ++ rides.map (fun r => (r, (0 : Int))))
        = "SOURCE" :: "SINK" :: rides := hnames1
    rw [h0]
  have hmem3 : ∀ lo ∈ los, ∀ o ∈ lo.2, o ∈ rides → o ∈ nodeNames
      (⟨([("SOURCE", 0), ("SINK", 0)] ++ rides.map (fun r => (r, 0))) ++ leadersNodes los,
        ([] ++ srcEdges rides) ++ leadersEdges los⟩ : Graph) := by
    intro lo _ o _ hr
    rw [hnames2]
    apply List.mem_append_left
    exact List.mem_cons_of_mem _ (List.mem_cons_of_mem _ hr)
  have hins3 : ∀ lo ∈ los, lo.1 ++ "_in" ∈ nodeNames
      (⟨([("SOURCE", 0), ("SINK", 0)] ++ rides.map (fun r => (r, 0))) ++ leadersNodes los,
        ([] ++ srcEdges rides) ++ leadersEdges los⟩ : Graph) := by
    intro lo hlo
    rw [hnames2]
    exact List.mem_append_right _ (mem_synthNames_in hlo)
  have hp3 : ∀ lo ∈ los, ∀ o ∈ lo.2, (o, lo.1 ++ "_in") ∉ edgePairs
      (⟨([("SOURCE", 0), ("SINK", 0)] ++ rides.map (fun r => (r, 0))) ++ leadersNodes los,
        ([] ++ srcEdges rides) ++ leadersEdges los⟩ : Graph) := by
    intro lo hlo o _ hmem
    simp only [edgePairs, List.nil_append, List.map_append, List.mem_append] at hmem
    rcases hmem with h3 | h3
    · obtain ⟨e, he, hpe⟩ := List.mem_map.1 h3
      obtain ⟨_, hed, _, _⟩ := srcEdges_mem he
      have : e.dst = lo.1 ++ "_in" := congrArg Prod.snd hpe
      apply hdisj e.dst hed
      rw [this]
      exact mem_synthNames_in hlo
    · obtain ⟨e, he, hpe⟩ := List.mem_map.1 h3
      have : e.dst = lo.1 ++ "_in" := congrArg Prod.snd hpe
      exact leadersEdges_dst_ne_in los lo hsynnd hTsyn hlo e he this
  have h3 := offersPhase rides los
    ⟨([("SOURCE", 0), ("SINK", 0)] ++ rides.map (fun r => (r, 0))) ++ leadersNodes los,
      ([] ++ srcEdges rides) ++ leadersEdges los⟩
    hosnd hmem3 hins3 hp3 (ins_nodup los hsynnd)
  unfold pgOf populate_graph
  simp only []
  rw [show addNode0 (addNode0 ⟨[], []⟩ "SOURCE") "SINK"
    = (⟨[("SOURCE", 0), ("SINK", 0)], []⟩ : Graph) from rfl]
  rw [h1, h2, h3]
  show Graph.mk _ _ = Graph.mk _ _
  unfold pgNodes pgEdges
  simp [List.append_assoc]

/- ### Flow sums on the populated graph -/

theorem pg_edges (rides : List String) (los : List (String × List String))
    (hv : ValidInput rides los) : (pgOf rides los).edges = pgEdges rides los := by
  rw [pg_char rides los hv]

theorem pg_nodes (rides : List String) (los : List (String × List String))
    (hv : ValidInput rides los) : (pgOf rides los).nodes = pgNodes rides los := by
  rw [pg_char rides los hv]

theorem edgeOutSum_append (f : String → String → Nat) (n : String) (es1 es2 : List Edge) :
    edgeOutSum f n (es1 ++ es2) = edgeOutSum f n es1 + edgeOutSum f n es2 := by
  induction es1 with
  | nil => simp [edgeOutSum]
  | cons e es ih =>
    have h1 : edgeOutSum f n ((e :: es) ++ es2)
        = (if e.src = n then f e.src e.dst else 0) + edgeOutSum f n (es ++ es2) := rfl
    have h2 : edgeOutSum f n (e :: es)
        = (if e.src = n then f e.src e.dst else 0) + edgeOutSum f n es := rfl
    rw [h1, h2, ih]
    omega

theorem edgeInSum_append (f : String → String → Nat) (n : String) (es1 es2 : List Edge) :
    edgeInSum f n (es1 ++ es2) = edgeInSum f n es1 + edgeInSum f n es2 := by
  induction es1 with
  | nil => simp [edgeInSum]
  | cons e es ih =>
    have h1 : edgeInSum f n ((e :: es) ++ es2)
        = (if e.dst = n then f e.src e.dst else 0) + edgeInSum f n (es ++ es2) := rfl
    have h2 : edgeInSum f n (e :: es)
        = (if e.dst = n then f e.src e.dst else 0) + edgeInSum f n es := rfl
    rw [h1, h2, ih]
    omega

theorem edgeOutSum_eq_zero (f : String → String → Nat) (n : String) (es : List Edge)
    (h : ∀ e ∈ es, e.src ≠ n) : edgeOutSum f n es = 0 := by
  induction es with
  | nil => rfl
  | cons e es ih =>
    show (if e.src = n then f e.src e.dst else 0) + edgeOutSum f n es = 0
    rw [if_neg (h e (List.mem_cons_self e es)), ih (fun e' he' => h e' (List.mem_cons_of_mem e he'))]

theorem edgeInSum_eq_zero (f : String → String → Nat) (n : String) (es : List Edge)
    (h : ∀ e ∈ es, e.dst ≠ n) : edgeInSum f n es = 0 := by
  induction es with
  | nil => rfl
  | cons e es ih =>
    show (if e.dst = n then f e.src e.dst else 0) + edgeInSum f n es = 0
    rw [if_neg (h e (List.mem_cons_self e es)), ih (fun e' he' => h e' (List.mem_cons_of_mem e he'))]

theorem edgeOutSum_srcEdges (f : String → String → Nat) (rides : List String) :
    edgeOutSum f "SOURCE" (srcEdges rides) = (rides.map (fun r => f "SOURCE" r)).sum := by
  induction rides with
  | nil => rfl
  | cons r rs ih =>
    show (if "SOURCE" = "SOURCE" then _ else 0) + edgeOutSum f "SOURCE" (srcEdges rs) = _
    rw [if_pos rfl, ih]
    rfl

theorem edgeInSum_srcEdges (f : String → String → Nat) (rides : List String) (r : String)
    (hnd : rides.Nodup) (hr : r ∈ rides) :
    edgeInSum f r (srcEdges rides) = f "SOURCE" r := by
  induction rides with
  | nil => cases hr
  | cons r0 rs ih =>
    show (if r0 = r then f "SOURCE" r0 else 0) + edgeInSum f r (srcEdges rs) = f "SOURCE" r
    rcases List.mem_cons.1 hr with h | h
    · rw [if_pos h.symm, ← h]
      have hz : edgeInSum f r (srcEdges rs) = 0 := by
        apply edgeInSum_eq_zero
        intro e he heq
        have hed := (srcEdges_mem he).2.1
        rw [heq] at hed
        exact (List.nodup_cons.1 hnd).1 (h ▸ hed)
      rw [hz]
      omega
    · have hne : r0 ≠ r := by
        intro he
        exact (List.nodup_cons.1 hnd).1 (he ▸ h)
      rw [if_neg hne, ih (List.nodup_cons.1 hnd).2 h]
      omega

/-- Flow out of the source node: one summand per ride edge. -/
theorem outflow_source (rides : List String) (los : List (String × List String))
    (hv : ValidInput rides los) (f : String → String → Nat) :
    outflow (pgOf rides los) f "SOURCE" = (rides.map (fun r => f "SOURCE" r)).sum := by
  obtain ⟨_, _, _, _, hSr, _, hSsyn, _, _, _⟩ := id hv
  unfold outflow
  rw [pg_edges rides los hv]
  unfold pgEdges
  rw [edgeOutSum_append, edgeOutSum_append, edgeOutSum_srcEdges]
  rw [edgeOutSum_eq_zero f _ (leadersEdges los) (by
    intro e he heq
    exact hSsyn (heq ▸ leadersEdges_src_mem he))]
  rw [edgeOutSum_eq_zero f _ (offersEdges rides los) (by
    intro e he heq
    exact hSr (heq ▸ offersEdges_src_mem he))]
  omega

/-- No edge enters the source node. -/
theorem inflow_source (rides : List String) (los : List (String × List String))
    (hv : ValidInput rides los) (f : String → String → Nat) :
    inflow (pgOf rides los) f "SOURCE" = 0 := by
  obtain ⟨_, _, _, _, hSr, _, hSsyn, _, _, _⟩ := id hv
  unfold inflow
  rw [pg_edges rides los hv]
  unfold pgEdges
  rw [edgeInSum_append, edgeInSum_append]
  rw [edgeInSum_eq_zero f _ (srcEdges rides) (by
    intro e he heq
    exact hSr (heq ▸ (srcEdges_mem he).2.1))]
  rw [edgeInSum_eq_zero f _ (leadersEdges los) (by
    intro e he heq
    rcases leadersEdges_dst_mem he with h | h
    · rw [heq] at h
      exact absurd h (by decide)
    · exact hSsyn (heq ▸ h))]
  rw [edgeInSum_eq_zero f _ (offersEdges rides los) (by
    intro e he heq
    exact hSsyn (heq ▸ offersEdges_dst_mem he))]

/-- Flow into a ride node: exactly the source edge of that ride. -/
theorem inflow_ride (rides : List String) (los : List (String × List String))
    (hv : ValidInput rides los) (f : String → String → Nat) {r : String} (hr : r ∈ rides) :
    inflow (pgOf rides los) f r = f "SOURCE" r := by
  obtain ⟨hrnd, _, _, _, _, hTr, _, _, hdisj, _⟩ := id hv
  unfold inflow
  rw [pg_edges rides los hv]
  unfold pgEdges
  rw [edgeInSum_append, edgeInSum_append, edgeInSum_srcEdges f rides r hrnd hr]
  rw [edgeInSum_eq_zero f _ (leadersEdges los) (by
    intro e he heq
    rcases leadersEdges_dst_mem he with h | h
    · rw [heq] at h
      exact hTr (h ▸ hr)
    · exact hdisj r hr (heq ▸ h))]
  rw [edgeInSum_eq_zero f _ (offersEdges rides los) (by
    intro e he heq
    exact hdisj r hr (heq ▸ offersEdges_dst_mem he))]
  omega

theorem edgeOutSum_offerFiltered (f : String → String → Nat) (r vin : String)
    (rides : List String) (os : List String) (hnd : os.Nodup) (hr : r ∈ rides) :
    edgeOutSum f r ((os.filter (fun o => o ∈ rides)).map (fun o => Edge.mk o vin 1 0))
      = if r ∈ os then f r vin else 0 := by
  induction os with
  | nil => simp [edgeOutSum]
  | cons o os ih =>
    rw [List.filter_cons]
    by_cases ho : o ∈ rides
    · rw [if_pos (by simpa using ho)]
      rw [List.map_cons]
      show (if o = r then f o vin else 0)
        + edgeOutSum f r ((os.filter (fun o => o ∈ rides)).map (fun o => Edge.mk o vin 1 0)) = _
      rw [ih (List.nodup_cons.1 hnd).2]
      by_cases hor : o = r
      · rw [if_pos hor, hor]
        have hno : r ∉ os := hor ▸ (List.nodup_cons.1 hnd).1
        rw [if_neg hno, if_pos (List.mem_cons_self r os)]
        omega
      · rw [if_neg hor]
        have hiff : r ∈ o :: os ↔ r ∈ os := by
          simp only [List.mem_cons]
          constructor
          · rintro (h | h)
            · exact absurd h.symm hor
            · exact h
          · exact Or.inr
        rw [if_congr hiff rfl rfl]
        omega
    · rw [if_neg (by simpa using ho)]
      rw [ih (List.nodup_cons.1 hnd).2]
      have hor : o ≠ r := by
        intro he
        exact ho (he ▸ hr)
      have hiff : r ∈ o :: os ↔ r ∈ os := by
        simp only [List.mem_cons]
        constructor
        · rintro (h | h)
          · exact absurd h.symm hor
          · exact h
        · exact Or.inr
      rw [if_congr hiff rfl rfl]

theorem edgeInSum_offerEdges_self (f : String → String → Nat) (vin : String)
    (os : List String) :
    edgeInSum f vin (os.map (fun o => Edge.mk o vin 1 0))
      = (os.map (fun o => f o vin)).sum := by
  induction os with
  | nil => rfl
  | cons o os ih =>
    rw [List.map_cons]
    show (if vin = vin then f o vin else 0) + _ = _
    rw [if_pos rfl, ih]
    rfl

theorem edgeOutSum_offersEdges (f : String → String → Nat) (r : String) (rides : List String)
    (los : List (String × List String)) (hosnd : ∀ lo ∈ los, lo.2.Nodup) (hr : r ∈ rides) :
    edgeOutSum f r (offersEdges rides los) = offerOut f r los := by
  induction los with
  | nil => rfl
  | cons lo rest ih =>
    show edgeOutSum f r (offerEdges rides lo ++ offersEdges rides rest) = _
    rw [edgeOutSum_append]
    unfold offerEdges
    rw [edgeOutSum_offerFiltered f r (lo.1 ++ "_in") rides lo.2
      (hosnd lo (List.mem_cons_self lo rest)) hr]
    rw [ih (fun lo' hlo' => hosnd lo' (List.mem_cons_of_mem lo hlo'))]
    show _ = ((lo :: rest).map (fun lo => if r ∈ lo.2 then f r (lo.1 ++ "_in") else 0)).sum
    rw [List.map_cons, List.sum_cons]
    rfl

/-- Flow out of a ride node: one summand per leader offering that ride. -/
theorem outflow_ride (rides : List String) (los : List (String × List String))
    (hv : ValidInput rides los) (f : String → String → Nat) {r : String} (hr : r ∈ rides) :
    outflow (pgOf rides los) f r = offerOut f r los := by
  obtain ⟨_, _, _, hosnd, hSr, _, _, _, hdisj, _⟩ := id hv
  unfold outflow
  rw [pg_edges rides los hv]
  unfold pgEdges
  rw [edgeOutSum_append, edgeOutSum_append]
  rw [edgeOutSum_eq_zero f _ (srcEdges rides) (by
    intro e he heq
    exact hSr ((srcEdges_mem he).1 ▸ heq ▸ hr))]
  rw [edgeOutSum_eq_zero f _ (leadersEdges los) (by
    intro e he heq
    exact hdisj r hr (heq ▸ leadersEdges_src_mem he))]
  rw [edgeOutSum_offersEdges f r rides los hosnd hr]
  omega

theorem edgeInSum_offersEdges_in (f : String → String → Nat) (rides : List String)
    (los : List (String × List String)) :
    ∀ lo : String × List String, (synthNames los).Nodup → lo ∈ los →
    edgeInSum f (lo.1 ++ "_in") (offersEdges rides los)
      = ((lo.2.filter (fun o => o ∈ rides)).map (fun o => f o (lo.1 ++ "_in"))).sum := by
  induction los with
  | nil => intro lo _ hlo; cases hlo
  | cons lo' rest ih =>
    intro lo hnd hlo
    rw [synthNames_cons] at hnd
    simp only [List.cons_append] at hnd
    obtain ⟨hin_nm, hnd2⟩ := List.nodup_cons.1 hnd
    obtain ⟨hout_nm, hnd3⟩ := List.nodup_cons.1 hnd2
    obtain ⟨_, hrest_nd, _⟩ := List.nodup_append.1 hnd3
    have hin_rest : lo'.1 ++ "_in" ∉ synthNames rest := by
      intro hmem
      exact hin_nm (List.mem_cons_of_mem _ (List.mem_append_right _ hmem))
    show edgeInSum f (lo.1 ++ "_in") (offerEdges rides lo' ++ offersEdges rides rest) = _
    rw [edgeInSum_append]
    rcases List.mem_cons.1 hlo with rfl | hlo2
    · unfold offerEdges
      rw [edgeInSum_offerEdges_self]
      rw [edgeInSum_eq_zero f _ (offersEdges rides rest) (by
        intro e he heq
        exact hin_rest (heq ▸ offersEdges_dst_mem he))]
      omega
    · rw [edgeInSum_eq_zero f _ (offerEdges rides lo') (by
        intro e he heq
        have := (offerEdges_mem he).2.2.1
        rw [this] at heq
        apply hin_rest
        rw [heq]
        exact mem_synthNames_in hlo2)]
      rw [ih lo hrest_nd hlo2]
      omega

/-- Flow into a leader's `_in` node: one summand per valid offer of that
leader. -/
theorem inflow_leader_in (rides : List String) (los : List (String × List String))
    (hv : ValidInput rides los) (f : String → String → Nat)
    {lo : String × List String} (hlo : lo ∈ los) :
    inflow (pgOf rides los) f (lo.1 ++ "_in") = leaderLoad f rides lo := by
  obtain ⟨_, _, hsynnd, _, _, _, _, hTsyn, hdisj, _⟩ := id hv
  unfold inflow
  rw [pg_edges rides los hv]
  unfold pgEdges
  rw [edgeInSum_append, edgeInSum_append]
  rw [edgeInSum_eq_zero f _ (srcEdges rides) (by
    intro e he heq
    exact hdisj e.dst (srcEdges_mem he).2.1 (heq ▸ mem_synthNames_in hlo))]
  rw [edgeInSum_eq_zero f _ (leadersEdges los)
    (fun e he => leadersEdges_dst_ne_in los lo hsynnd hTsyn hlo e he)]
  rw [edgeInSum_offersEdges_in f rides los lo hsynnd hlo]
  unfold leaderLoad
  omega

/- ### Flow value equals the total leader load -/

theorem flowValue_pg (rides : List String) (los : List (String × List String))
    (hv : ValidInput rides los) (f : String → String → Nat) :
    flowValue (pgOf rides los) f "SOURCE"
      = (((rides.map (fun r => f "SOURCE" r)).sum : Nat) : Int) := by
  unfold flowValue
  rw [outflow_source rides los hv f, inflow_source rides los hv f]
  omega

theorem mem_pg_nodes_ride (rides : List String) (los : List (String × List String))
    (hv : ValidInput rides los) {r : String} (hr : r ∈ rides) :
    (r, (0 : Int)) ∈ (pgOf rides los).nodes := by
  rw [pg_nodes rides los hv]
  unfold pgNodes
  apply List.mem_cons_of_mem
  apply List.mem_cons_of_mem
  apply List.mem_append_left
  exact List.mem_map_of_mem _ hr

theorem conserved_ride_flow (rides : List String) (los : List (String × List String))
    (hv : ValidInput rides los) (f : String → String → Nat)
    (hcons : Conserved (pgOf rides los) f "SOURCE" "SINK") {r : String} (hr : r ∈ rides) :
    f "SOURCE" r = offerOut f r los := by
  obtain ⟨_, _, _, _, hSr, hTr, _, _, _, _⟩ := id hv
  have h1 := hcons (r, 0) (mem_pg_nodes_ride rides los hv hr)
    (fun he => hSr (he ▸ hr)) (fun he => hTr (he ▸ hr))
  unfold excess at h1
  rw [inflow_ride rides los hv f hr, outflow_ride rides los hv f hr] at h1
  omega

theorem sum_ite_filter {α : Type} (l : List α) (p : α → Prop) [DecidablePred p] (g : α → Nat) :
    (l.map (fun x => if p x then g x else 0)).sum = ((l.filter (fun x => p x)).map g).sum := by
  induction l with
  | nil => rfl
  | cons x xs ih =>
    rw [List.map_cons, List.sum_cons, List.filter_cons]
    by_cases hx : p x
    · rw [if_pos hx, if_pos (by simpa using hx), List.map_cons, List.sum_cons, ih]
    · rw [if_neg hx, if_neg (by simpa using hx), ih]
      omega

theorem perm_filter_swap (l1 l2 : List String) (h1 : l1.Nodup) (h2 : l2.Nodup) :
    List.Perm (l1.filter (fun x => x ∈ l2)) (l2.filter (fun x => x ∈ l1)) := by
  apply List.perm_of_nodup_nodup_toFinset_eq (h1.filter _) (h2.filter _)
  apply Finset.ext
  intro a
  simp only [List.mem_toFinset, List.mem_filter, decide_eq_true_eq]
  exact And.comm

theorem sum_swap_offerOut (f : String → String → Nat) (rides : List String)
    (los : List (String × List String)) :
    (rides.map (fun r => offerOut f r los)).sum
      = (los.map (fun lo =>
          (rides.map (fun r => if r ∈ lo.2 then f r (lo.1 ++ "_in") else 0)).sum)).sum := by
  induction los with
  | nil =>
    simp [offerOut]
  | cons lo rest ih =>
    have hstep : ∀ r, offerOut f r (lo :: rest)
        = (if r ∈ lo.2 then f r (lo.1 ++ "_in") else 0) + offerOut f r rest := by
      intro r
      unfold offerOut
      rw [List.map_cons, List.sum_cons]
    calc (rides.map (fun r => offerOut f r (lo :: rest))).sum
        = (rides.map (fun r => (if r ∈ lo.2 then f r (lo.1 ++ "_in") else 0)
            + offerOut f r rest)).sum := by
          apply congrArg
          apply List.map_congr_left
          intro r _
          exact hstep r
      _ = (rides.map (fun r => if r ∈ lo.2 then f r (lo.1 ++ "_in") else 0)).sum
            + (rides.map (fun r => offerOut f r rest)).sum := sum_map_add _ _ _
      _ = _ := by
          rw [ih, List.map_cons, List.sum_cons]

theorem sum_ite_eq_leaderLoad (f : String → String → Nat) (rides : List String)
    (hrnd : rides.Nodup) (lo : String × List String) (hosnd : lo.2.Nodup) :
    (rides.map (fun r => if r ∈ lo.2 then f r (lo.1 ++ "_in") else 0)).sum
      = leaderLoad f rides lo := by
  rw [sum_ite_filter rides (fun r => r ∈ lo.2) (fun r => f r (lo.1 ++ "_in"))]
  unfold leaderLoad
  have hperm := perm_filter_swap rides lo.2 hrnd hosnd
  exact (hperm.map (fun r => f r (lo.1 ++ "_in"))).sum_eq

/-- On valid input, the value of a conserved flow equals the total of the
leaders' loads. -/
theorem value_eq_total_load (rides : List String) (los : List (String × List String))
    (hv : ValidInput rides los) (f : String → String → Nat)
    (hcons : Conserved (pgOf rides los) f "SOURCE" "SINK") :
    flowValue (pgOf rides los) f "SOURCE"
      = (((los.map (fun lo => leaderLoad f rides lo)).sum : Nat) : Int) := by
  obtain ⟨hrnd, _, _, hosnd, _, _, _, _, _, _⟩ := id hv
  rw [flowValue_pg rides los hv f]
  have h1 : (rides.map (fun r => f "SOURCE" r)).sum
      = (rides.map (fun r => offerOut f r los)).sum := by
    apply congrArg
    apply List.map_congr_left
    intro r hr
    exact conserved_ride_flow rides los hv f hcons hr
  rw [h1, sum_swap_offerOut f rides los]
  have h2 : (los.map (fun lo =>
      (rides.map (fun r => if r ∈ lo.2 then f r (lo.1 ++ "_in") else 0)).sum)).sum
      = (los.map (fun lo => leaderLoad f rides lo)).sum := by
    apply congrArg
    apply List.map_congr_left
    intro lo hlo
    exact sum_ite_eq_leaderLoad f rides hrnd lo (hosnd lo hlo)
  rw [h2]

/- ### Successors of a ride node -/

theorem filter_src_eq_nil (r : String) (es : List Edge) (h : ∀ e ∈ es, e.src ≠ r) :
    es.filter (fun e => e.src == r) = [] := by
  induction es with
  | nil => rfl
  | cons e es ih =>
    rw [List.filter_cons, if_neg (by
      simp only [beq_iff_eq]
      exact fun hc => h e (List.mem_cons_self e es) (by simpa using hc))]
    exact ih (fun e' he' => h e' (List.mem_cons_of_mem e he'))

theorem successors_offerEdges (r vin : String)
    (rides : List String) (os : List String) (hnd : os.Nodup) (hr : r ∈ rides) :
    (((os.filter (fun o => o ∈ rides)).map (fun o => Edge.mk o vin 1 0)).filter
        (fun e => e.src == r)).map Edge.dst
      = if r ∈ os then [vin] else [] := by
  induction os with
  | nil => simp
  | cons o os ih =>
    rw [List.filter_cons]
    by_cases ho : o ∈ rides
    · rw [if_pos (by simpa using ho), List.map_cons, List.filter_cons]
      by_cases hor : o = r
      · rw [if_pos (by simpa using hor), List.map_cons]
        have hno : r ∉ os := hor ▸ (List.nodup_cons.1 hnd).1
        have hz : ((os.filter (fun o => o ∈ rides)).map (fun o => Edge.mk o vin 1 0)).filter
            (fun e => e.src == r) = [] := by
          apply filter_src_eq_nil
          intro e he heq
          obtain ⟨o', ho', he'⟩ := List.mem_map.1 he
          apply hno
          have ho2 : o' ∈ os := (List.mem_filter.1 ho').1
          have hsrc : e.src = o' := by rw [← he']
          rw [hsrc] at heq
          rw [← heq]
          exact ho2
        rw [hz]
        rw [if_pos (hor ▸ List.mem_cons_self o os)]
        rfl
      · rw [if_neg (by simpa using hor), ih (List.nodup_cons.1 hnd).2]
        have hiff : r ∈ o :: os ↔ r ∈ os := by
          simp only [List.mem_cons]
          constructor
          · rintro (h | h)
            · exact absurd h.symm hor
            · exact h
          · exact Or.inr
        rw [if_congr hiff rfl rfl]
    · rw [if_neg (by simpa using ho), ih (List.nodup_cons.1 hnd).2]
      have hor : o ≠ r := fun he => ho (he ▸ hr)
      have hiff : r ∈ o :: os ↔ r ∈ os := by
        simp only [List.mem_cons]
        constructor
        · rintro (h | h)
          · exact absurd h.symm hor
          · exact h
        · exact Or.inr
      rw [if_congr hiff rfl rfl]

theorem successors_offersEdges (r : String) (rides : List String) :
    ∀ los : List (String × List String), (∀ lo ∈ los, lo.2.Nodup) → r ∈ rides →
    ((offersEdges rides los).filter (fun e => e.src == r)).map Edge.dst
      = (los.filter (fun lo => r ∈ lo.2)).map (fun lo => lo.1 ++ "_in") := by
  intro los
  induction los with
  | nil => intro _ _; rfl
  | cons lo rest ih =>
    intro hosnd hr
    show List.map Edge.dst (List.filter _ (offerEdges rides lo ++ offersEdges rides rest)) = _
    rw [List.filter_append, List.map_append]
    unfold offerEdges
    rw [successors_offerEdges r (lo.1 ++ "_in") rides lo.2
      (hosnd lo (List.mem_cons_self lo rest)) hr]
    rw [ih (fun lo' hlo' => hosnd lo' (List.mem_cons_of_mem lo hlo')) hr]
    rw [List.filter_cons]
    by_cases hro : r ∈ lo.2
    · rw [if_pos hro, if_pos (by simpa using hro), List.map_cons]
      rfl
    · rw [if_neg hro, if_neg (by simpa using hro)]
      rfl

theorem successors_pg (rides : List String) (los : List (String × List String))
    (hv : ValidInput rides los) {r : String} (hr : r ∈ rides) :
    successors (pgOf rides los) r
      = (los.filter (fun lo => r ∈ lo.2)).map (fun lo => lo.1 ++ "_in") := by
  obtain ⟨_, _, _, hosnd, hSr, _, _, _, hdisj, _⟩ := id hv
  unfold successors
  rw [pg_edges rides los hv]
  unfold pgEdges
  rw [List.filter_append, List.filter_append, List.map_append, List.map_append]
  rw [filter_src_eq_nil r (srcEdges rides) (by
    intro e he heq
    exact hSr ((srcEdges_mem he).1 ▸ heq ▸ hr))]
  rw [filter_src_eq_nil r (leadersEdges los) (by
    intro e he heq
    exact hdisj r hr (heq ▸ leadersEdges_src_mem he))]
  simp only [List.map_nil, List.nil_append]
  exact successors_offersEdges r rides los hosnd hr

/- ### The extraction loop computes the allocation -/

theorem extract_inner (los : List (String × List String)) (hkeys : (los.map Prod.fst).Nodup)
    (hrepl : ∀ lo ∈ los, replace_in (lo.1 ++ "_in") = lo.1)
    (f : String → String → Nat) (r : String) :
    ∀ sub : List (String × List String), sub.Sublist los →
    ∀ h : (String × List String) → List String,
    ((sub.filter (fun lo => r ∈ lo.2)).map (fun lo => lo.1 ++ "_in")).foldl
        (fun acc2 v => match acc2 with
          | none => none
          | some al2 => if 0 < f r v then updAppend al2 (replace_in v) r else some al2)
        (some (los.map (fun lo => (lo.1, h lo))))
      = some (los.map (fun lo => (lo.1, h lo ++
          (if lo ∈ sub ∧ r ∈ lo.2 ∧ 0 < f r (lo.1 ++ "_in") then [r] else [])))) := by
  intro sub
  induction sub with
  | nil =>
    intro _ h
    simp only [List.filter_nil, List.map_nil, List.foldl_nil]
    congr 1
    apply List.map_congr_left
    intro lo _
    simp
  | cons lo0 sub ih =>
    intro hsl h
    have hlo0 : lo0 ∈ los := hsl.subset (List.mem_cons_self _ _)
    have hsub : sub.Sublist los := (List.sublist_cons_self lo0 sub).trans hsl
    have hlosnd : los.Nodup := List.Nodup.of_map Prod.fst hkeys
    have hcons_nd : (lo0 :: sub).Nodup := List.Nodup.sublist hsl hlosnd
    have hlo0_not : lo0 ∉ sub := (List.nodup_cons.1 hcons_nd).1
    have hinj : ∀ lo ∈ los, lo.1 = lo0.1 → lo = lo0 :=
      fun lo hlo heq => List.inj_on_of_nodup_map hkeys hlo hlo0 heq
    rw [List.filter_cons]
    by_cases hro : r ∈ lo0.2
    · rw [if_pos (by simpa using hro), List.map_cons, List.foldl_cons]
      by_cases hpos : 0 < f r (lo0.1 ++ "_in")
      · have hkey : lo0.1 ∈ (los.map (fun lo => (lo.1, h lo))).map Prod.fst := by
          rw [List.map_map]
          exact List.mem_map_of_mem _ hlo0
        have hstep : (if 0 < f r (lo0.1 ++ "_in") then
              updAppend (los.map (fun lo => (lo.1, h lo))) (replace_in (lo0.1 ++ "_in")) r
            else some (los.map (fun lo => (lo.1, h lo))))
            = some (los.map (fun lo =>
                (lo.1, if lo.1 = lo0.1 then h lo ++ [r] else h lo))) := by
          rw [if_pos hpos, hrepl lo0 hlo0]
          unfold updAppend
          rw [if_pos hkey]
          congr 1
          rw [List.map_map]
          apply List.map_congr_left
          intro lo _
          show (if lo.1 = lo0.1 then (lo.1, h lo ++ [r]) else (lo.1, h lo)) = _
          by_cases hk : lo.1 = lo0.1
          · rw [if_pos hk, if_pos hk]
          · rw [if_neg hk, if_neg hk]
        show List.foldl _ (if 0 < f r (lo0.1 ++ "_in") then _ else _) _ = _
        rw [hstep]
        have hih := ih hsub (fun lo => if lo.1 = lo0.1 then h lo ++ [r] else h lo)
        refine hih.trans ?_
        congr 1
        apply List.map_congr_left
        intro lo hlo
        by_cases hk : lo.1 = lo0.1
        · have hlo_eq : lo = lo0 := hinj lo hlo hk
          rw [hlo_eq]
          rw [if_pos rfl, if_neg (by
            intro hc
            exact hlo0_not hc.1)]
          rw [if_pos ⟨List.mem_cons_self _ _, hro, hpos⟩]
          simp
        · have hne : lo ≠ lo0 := fun he => hk (he ▸ rfl)
          rw [if_neg hk]
          have hiff : (lo ∈ sub ∧ r ∈ lo.2 ∧ 0 < f r (lo.1 ++ "_in"))
              ↔ (lo ∈ lo0 :: sub ∧ r ∈ lo.2 ∧ 0 < f r (lo.1 ++ "_in")) := by
            constructor
            · rintro ⟨h1, h2, h3⟩
              exact ⟨List.mem_cons_of_mem _ h1, h2, h3⟩
            · rintro ⟨h1, h2, h3⟩
              rcases List.mem_cons.1 h1 with he | he
              · exact absurd he hne
              · exact ⟨he, h2, h3⟩
          rw [if_congr hiff rfl rfl]
      · have hstep : (if 0 < f r (lo0.1 ++ "_in") then
              updAppend (los.map (fun lo => (lo.1, h lo))) (replace_in (lo0.1 ++ "_in")) r
            else some (los.map (fun lo => (lo.1, h lo))))
            = some (los.map (fun lo => (lo.1, h lo))) := by
          rw [if_neg hpos]
        show List.foldl _ (if 0 < f r (lo0.1 ++ "_in") then _ else _) _ = _
        rw [hstep]
        refine (ih hsub h).trans ?_
        congr 1
        apply List.map_congr_left
        intro lo hlo
        by_cases hk : lo = lo0
        · rw [hk]
          rw [if_neg (fun hc => hlo0_not hc.1), if_neg (fun hc => hpos hc.2.2)]
        · have hiff : (lo ∈ sub ∧ r ∈ lo.2 ∧ 0 < f r (lo.1 ++ "_in"))
              ↔ (lo ∈ lo0 :: sub ∧ r ∈ lo.2 ∧ 0 < f r (lo.1 ++ "_in")) := by
            constructor
            · rintro ⟨h1, h2, h3⟩
              exact ⟨List.mem_cons_of_mem _ h1, h2, h3⟩
            · rintro ⟨h1, h2, h3⟩
              rcases List.mem_cons.1 h1 with he | he
              · exact absurd he hk
              · exact ⟨he, h2, h3⟩
          rw [if_congr hiff rfl rfl]
    · rw [if_neg (by simpa using hro)]
      refine (ih hsub h).trans ?_
      congr 1
      apply List.map_congr_left
      intro lo hlo
      by_cases hk : lo = lo0
      · rw [hk]
        rw [if_neg (fun hc => hlo0_not hc.1), if_neg (fun hc => hro hc.2.1)]
      · have hiff : (lo ∈ sub ∧ r ∈ lo.2 ∧ 0 < f r (lo.1 ++ "_in"))
            ↔ (lo ∈ lo0 :: sub ∧ r ∈ lo.2 ∧ 0 < f r (lo.1 ++ "_in")) := by
          constructor
          · rintro ⟨h1, h2, h3⟩
            exact ⟨List.mem_cons_of_mem _ h1, h2, h3⟩
          · rintro ⟨h1, h2, h3⟩
            rcases List.mem_cons.1 h1 with he | he
            · exact absurd he hk
            · exact ⟨he, h2, h3⟩
        rw [if_congr hiff rfl rfl]

theorem mem_nodeNames_pg_ride (rides : List String) (los : List (String × List String))
    (hv : ValidInput rides los) {r : String} (hr : r ∈ rides) :
    r ∈ nodeNames (pgOf rides los) := by
  show r ∈ (pgOf rides los).nodes.map Prod.fst
  rw [pg_nodes rides los hv]
  unfold pgNodes
  simp only [List.map_cons, List.map_append, List.map_map, List.mem_cons, List.mem_append]
  right; right; left
  rw [show (Prod.fst ∘ fun r : String => (r, (0 : Int))) = id from rfl, List.map_id]
  exact hr

theorem extract_outer (rides : List String) (los : List (String × List String))
    (hv : ValidInput rides los) (f : String → String → Nat) :
    ∀ rs : List String, (∀ x ∈ rs, x ∈ rides) →
    ∀ h : (String × List String) → List String,
    rs.foldl (fun acc r => match acc with
        | none => none
        | some al =>
          if r ∈ nodeNames (pgOf rides los) then
            (successors (pgOf rides los) r).foldl (fun acc2 v => match acc2 with
              | none => none
              | some al2 => if 0 < f r v then updAppend al2 (replace_in v) r else some al2)
              (some al)
          else some al)
        (some (los.map (fun lo => (lo.1, h lo))))
      = some (los.map (fun lo => (lo.1, h lo ++ rs.filter (fun x =>
          decide (x ∈ lo.2) && decide (0 < f x (lo.1 ++ "_in")))))) := by
  obtain ⟨_, hkeys, _, _, _, _, _, _, _, hrepl⟩ := id hv
  intro rs
  induction rs with
  | nil =>
    intro _ h
    simp only [List.foldl_nil, List.filter_nil, List.append_nil]
  | cons r rs ih =>
    intro hsub h
    have hr : r ∈ rides := hsub r (List.mem_cons_self r rs)
    rw [List.foldl_cons]
    have hrnode : r ∈ nodeNames (pgOf rides los) := mem_nodeNames_pg_ride rides los hv hr
    have hstep : (if r ∈ nodeNames (pgOf rides los) then
          (successors (pgOf rides los) r).foldl (fun acc2 v => match acc2 with
            | none => none
            | some al2 => if 0 < f r v then updAppend al2 (replace_in v) r else some al2)
            (some (los.map (fun lo => (lo.1, h lo))))
        else some (los.map (fun lo => (lo.1, h lo))))
        = some (los.map (fun lo => (lo.1, h lo ++
            (if lo ∈ los ∧ r ∈ lo.2 ∧ 0 < f r (lo.1 ++ "_in") then [r] else [])))) := by
      rw [if_pos hrnode, successors_pg rides los hv hr]
      exact extract_inner los hkeys hrepl f r los (List.Sublist.refl los) h
    show List.foldl _ (if r ∈ nodeNames (pgOf rides los) then
          (successors (pgOf rides los) r).foldl (fun acc2 v => match acc2 with
            | none => none
            | some al2 => if 0 < f r v then updAppend al2 (replace_in v) r else some al2)
            (some (los.map (fun lo => (lo.1, h lo))))
        else some (los.map (fun lo => (lo.1, h lo)))) rs = _
    rw [hstep]
    have hih := ih (fun x hx => hsub x (List.mem_cons_of_mem r hx))
      (fun lo => h lo ++ (if lo ∈ los ∧ r ∈ lo.2 ∧ 0 < f r (lo.1 ++ "_in") then [r] else []))
    refine hih.trans ?_
    congr 1
    apply List.map_congr_left
    intro lo hlo
    show (lo.1, (h lo ++ _) ++ _) = (lo.1, h lo ++ _)
    rw [List.append_assoc]
    congr 1
    rw [List.filter_cons]
    by_cases hc : r ∈ lo.2 ∧ 0 < f r (lo.1 ++ "_in")
    · rw [if_pos ⟨hlo, hc.1, hc.2⟩, if_pos (by
        simp only [Bool.and_eq_true, decide_eq_true_eq]
        exact hc)]
      rfl
    · rw [if_neg (fun hcc => hc ⟨hcc.2.1, hcc.2.2⟩), if_neg (by
        simp only [Bool.and_eq_true, decide_eq_true_eq]
        exact hc)]
      rfl

/-- On valid input, extraction succeeds (no `KeyError`) and returns exactly
the allocation read off the offer-edge flows. -/
theorem extract_eq (rides : List String) (los : List (String × List String))
    (hv : ValidInput rides los) (f : String → String → Nat) :
    extract_allocations (pgOf rides los) (some f) rides los
      = some (allocSpec rides los f) := by
  unfold extract_allocations
  have h := extract_outer rides los hv f rides (fun x hx => hx) (fun _ => [])
  exact h.trans rfl

/- ### Counting helpers for the allocation -/

theorem src_edge_mem (rides : List String) (los : List (String × List String))
    (hv : ValidInput rides los) {r : String} (hr : r ∈ rides) :
    Edge.mk "SOURCE" r 1 0 ∈ (pgOf rides los).edges := by
  rw [pg_edges rides los hv]
  unfold pgEdges
  apply List.mem_append_left
  apply List.mem_append_left
  exact List.mem_map_of_mem _ hr

theorem mem_offersEdges_intro (rides : List String) {o : String} (hor : o ∈ rides) :
    ∀ los : List (String × List String), ∀ lo ∈ los, o ∈ lo.2 →
    Edge.mk o (lo.1 ++ "_in") 1 0 ∈ offersEdges rides los := by
  intro los
  induction los with
  | nil => intro lo hlo; cases hlo
  | cons lo' rest ih =>
    intro lo hlo ho
    rcases List.mem_cons.1 hlo with rfl | hlo2
    · show _ ∈ offerEdges rides lo ++ offersEdges rides rest
      apply List.mem_append_left
      unfold offerEdges
      apply List.mem_map_of_mem
      rw [List.mem_filter]
      exact ⟨ho, by simpa using hor⟩
    · show _ ∈ offerEdges rides lo' ++ offersEdges rides rest
      exact List.mem_append_right _ (ih lo hlo2 ho)

theorem offer_edge_mem (rides : List String) (los : List (String × List String))
    (hv : ValidInput rides los) {lo : String × List String} (hlo : lo ∈ los)
    {o : String} (ho : o ∈ lo.2) (hor : o ∈ rides) :
    Edge.mk o (lo.1 ++ "_in") 1 0 ∈ (pgOf rides los).edges := by
  rw [pg_edges rides los hv]
  unfold pgEdges
  apply List.mem_append_right
  exact mem_offersEdges_intro rides hor los lo hlo ho

theorem length_filter_eq_sum {α : Type} (p : α → Bool) (l : List α) :
    (l.filter p).length = (l.map (fun x => if p x then 1 else 0)).sum := by
  induction l with
  | nil => rfl
  | cons x xs ih =>
    rw [List.filter_cons, List.map_cons, List.sum_cons]
    by_cases hx : p x
    · rw [if_pos hx, if_pos hx, List.length_cons, ih]
      omega
    · rw [if_neg hx, if_neg hx, ih]
      omega

/-- With capacity-1 offer edges, the number of rides a leader receives in the
extracted allocation equals the leader's load. -/
theorem length_filter_eq_load (rides : List String) (los : List (String × List String))
    (hv : ValidInput rides los) (f : String → String → Nat)
    (hfe : FeasibleFlow (pgOf rides los) f) {lo : String × List String} (hlo : lo ∈ los) :
    (rides.filter (fun r => decide (r ∈ lo.2) && decide (0 < f r (lo.1 ++ "_in")))).length
      = leaderLoad f rides lo := by
  rw [length_filter_eq_sum]
  have h1 : ∀ r ∈ rides,
      (if (decide (r ∈ lo.2) && decide (0 < f r (lo.1 ++ "_in"))) = true then 1 else 0)
        = (if r ∈ lo.2 then f r (lo.1 ++ "_in") else 0) := by
    intro r hr
    by_cases hro : r ∈ lo.2
    · have hcap : f r (lo.1 ++ "_in") ≤ 1 :=
        hfe ⟨r, lo.1 ++ "_in", 1, 0⟩ (offer_edge_mem rides los hv hlo hro hr)
      by_cases hpos : 0 < f r (lo.1 ++ "_in")
      · rw [if_pos (by simp [hro, hpos]), if_pos hro]
        omega
      · rw [if_neg (by simp [hpos]), if_pos hro]
        omega
    · rw [if_neg (by simp [hro]), if_neg hro]
  have h2 : rides.map (fun r =>
      if (decide (r ∈ lo.2) && decide (0 < f r (lo.1 ++ "_in"))) = true then 1 else 0)
      = rides.map (fun r => if r ∈ lo.2 then f r (lo.1 ++ "_in") else 0) :=
    List.map_congr_left h1
  rw [h2]
  obtain ⟨hrnd, _, _, hosnd, _, _, _, _, _, _⟩ := id hv
  exact sum_ite_eq_leaderLoad f rides hrnd lo (hosnd lo hlo)

theorem countP_le_of_sum (f : String → String → Nat) (r : String) :
    ∀ los : List (String × List String), ∀ bound : Nat,
    (los.map (fun lo => if r ∈ lo.2 then f r (lo.1 ++ "_in") else 0)).sum ≤ bound →
    los.countP (fun lo => decide (r ∈ lo.2) && decide (0 < f r (lo.1 ++ "_in"))) ≤ bound := by
  intro los
  induction los with
  | nil => intro bound _; exact Nat.zero_le _
  | cons lo rest ih =>
    intro bound hsum
    rw [List.map_cons, List.sum_cons] at hsum
    rw [List.countP_cons]
    by_cases hc : (decide (r ∈ lo.2) && decide (0 < f r (lo.1 ++ "_in"))) = true
    · rw [if_pos hc]
      simp only [Bool.and_eq_true, decide_eq_true_eq] at hc
      rw [if_pos hc.1] at hsum
      have hpos := hc.2
      have h1 := ih (bound - 1) (by omega)
      omega
    · rw [if_neg hc]
      have h1 := ih bound (by omega)
      omega

/- ### Claims C2, C3, C4 -/

theorem one_valid : ValidInput oneRides oneOffers := by
  unfold ValidInput
  decide

/-- C2.  For every valid input, the total number of rides in the extracted
allocation, summed over all leaders, equals the `filled_count` returned by
`assign_ride_leaders` — including the degraded `(0, {})` outcome, whose
allocation is all-empty. -/
theorem c2_sum_allocations_eq_filled (rides : List String)
    (los : List (String × List String)) (hv : ValidInput rides los)
    (res : Nat × Option (String → String → Nat))
    (h : AssignResult (pgOf rides los) "SOURCE" "SINK" res) :
    ∃ al, extract_allocations (pgOf rides los) res.2 rides los = some al ∧
      (al.map (fun p => p.2.length)).sum = res.1 := by
  obtain ⟨F, _, hbr⟩ := h
  rcases hbr with ⟨f, hmc, hres⟩ | ⟨_, hres⟩
  · rw [hres]
    refine ⟨allocSpec rides los f, extract_eq rides los hv f, ?_⟩
    have h1 : (allocSpec rides los f).map (fun p => p.2.length)
        = los.map (fun lo => leaderLoad f rides lo) := by
      unfold allocSpec
      rw [List.map_map]
      apply List.map_congr_left
      intro lo hlo
      exact length_filter_eq_load rides los hv f hmc.1 hlo
    rw [h1]
    have hsat := hmc.2.1
    obtain ⟨hcons, hval⟩ := (demand_iff_value rides los f F).1 hsat
    have htot := value_eq_total_load rides los hv f hcons
    rw [hval] at htot
    omega
  · rw [hres]
    refine ⟨los.map (fun p => (p.1, ([] : List String))), ?_, ?_⟩
    · rfl
    rw [List.map_map]
    show (los.map (fun _ => 0)).sum = 0
    rw [List.sum_eq_zero]
    intro x hx
    obtain ⟨_, _, he⟩ := List.mem_map.1 hx
    exact he.symm

/-- Witness for C2 at the one-ride input. -/
theorem c2_sum_allocations_eq_filled_witness :
    ∃ al, extract_allocations (pgOf oneRides oneOffers) (1, some oneFlow).2
        oneRides oneOffers = some al ∧
      (al.map (fun p => p.2.length)).sum = (1, some oneFlow).1 :=
  c2_sum_allocations_eq_filled oneRides oneOffers one_valid (1, some oneFlow) one_assign

/-- C3.  For every valid input and every leader, every ride in that leader's
extracted allocation is one the leader declared in their offer list. -/
theorem c3_allocated_only_offered (rides : List String)
    (los : List (String × List String)) (hv : ValidInput rides los)
    (res : Nat × Option (String → String → Nat))
    (h : AssignResult (pgOf rides los) "SOURCE" "SINK" res) :
    ∃ al, extract_allocations (pgOf rides los) res.2 rides los = some al ∧
      ∀ p ∈ al, ∃ os, (p.1, os) ∈ los ∧ ∀ r ∈ p.2, r ∈ os := by
  obtain ⟨F, _, hbr⟩ := h
  rcases hbr with ⟨f, _, hres⟩ | ⟨_, hres⟩
  · rw [hres]
    refine ⟨allocSpec rides los f, extract_eq rides los hv f, ?_⟩
    intro p hp
    unfold allocSpec at hp
    obtain ⟨lo, hlo, he⟩ := List.mem_map.1 hp
    refine ⟨lo.2, ?_, ?_⟩
    · have : (p.1, lo.2) = lo := by
        rw [← he]
      rw [this]
      exact hlo
    · intro r hr
      rw [← he] at hr
      have := List.mem_filter.1 hr
      simp only [Bool.and_eq_true, decide_eq_true_eq] at this
      exact this.2.1
  · rw [hres]
    refine ⟨los.map (fun p => (p.1, ([] : List String))), ?_, ?_⟩
    · rfl
    intro p hp
    obtain ⟨lo, hlo, he⟩ := List.mem_map.1 hp
    refine ⟨lo.2, ?_, ?_⟩
    · have : (p.1, lo.2) = lo := by
        rw [← he]
      rw [this]
      exact hlo
    · intro r hr
      rw [← he] at hr
      cases hr

/-- Witness for C3 at the one-ride input. -/
theorem c3_allocated_only_offered_witness :
    ∃ al, extract_allocations (pgOf oneRides oneOffers) (1, some oneFlow).2
        oneRides oneOffers = some al ∧
      ∀ p ∈ al, ∃ os, (p.1, os) ∈ oneOffers ∧ ∀ r ∈ p.2, r ∈ os :=
  c3_allocated_only_offered oneRides oneOffers one_valid (1, some oneFlow) one_assign

/-- C4.  For every valid input, no ride is recorded in more than one leader's
extracted allocation. -/
theorem c4_ride_assigned_at_most_once (rides : List String)
    (los : List (String × List String)) (hv : ValidInput rides los)
    (res : Nat × Option (String → String → Nat))
    (h : AssignResult (pgOf rides los) "SOURCE" "SINK" res) :
    ∃ al, extract_allocations (pgOf rides los) res.2 rides los = some al ∧
      ∀ r : String, al.countP (fun p => decide (r ∈ p.2)) ≤ 1 := by
  obtain ⟨F, _, hbr⟩ := h
  rcases hbr with ⟨f, hmc, hres⟩ | ⟨_, hres⟩
  · rw [hres]
    refine ⟨allocSpec rides los f, extract_eq rides los hv f, ?_⟩
    intro r
    unfold allocSpec
    rw [List.countP_map]
    by_cases hr : r ∈ rides
    · -- flow through the ride is bounded by the source edge capacity
      have hsat := hmc.2.1
      obtain ⟨hcons, _⟩ := (demand_iff_value rides los f F).1 hsat
      have hflow := conserved_ride_flow rides los hv f hcons hr
      have hcap : f "SOURCE" r ≤ 1 :=
        hmc.1 ⟨"SOURCE", r, 1, 0⟩ (src_edge_mem rides los hv hr)
      have hsum : (los.map (fun lo => if r ∈ lo.2 then f r (lo.1 ++ "_in") else 0)).sum ≤ 1 := by
        unfold offerOut at hflow
        omega
      have hle := countP_le_of_sum f r los 1 hsum
      refine le_trans (List.countP_mono_left ?_) hle
      intro lo hlo hc
      simp only [Function.comp, decide_eq_true_eq] at hc
      have := List.mem_filter.1 hc
      simp only [Bool.and_eq_true, decide_eq_true_eq] at this
      simp only [Bool.and_eq_true, decide_eq_true_eq]
      exact this.2
    · -- the ride is never in any filtered list
      have hz : ∀ lo ∈ los,
          ((fun p => decide (r ∈ p.2)) ∘ fun lo =>
            (lo.1, rides.filter (fun r => decide (r ∈ lo.2)
              && decide (0 < f r (lo.1 ++ "_in"))))) lo = false := by
        intro lo _
        simp only [Function.comp, decide_eq_false_iff_not]
        intro hc
        exact hr (List.mem_filter.1 hc).1
      rw [List.countP_eq_zero.2 (by
        intro lo hlo hc
        rw [hz lo hlo] at hc
        cases hc)]
      omega
  · rw [hres]
    refine ⟨los.map (fun p => (p.1, ([] : List String))), ?_, ?_⟩
    · rfl
    intro r
    rw [List.countP_map]
    rw [List.countP_eq_zero.2 (by
      intro lo _ hc
      simp only [Function.comp] at hc
      cases hc)]
    omega

/-- Witness for C4 at the one-ride input. -/
theorem c4_ride_assigned_at_most_once_witness :
    ∃ al, extract_allocations (pgOf oneRides oneOffers) (1, some oneFlow).2
        oneRides oneOffers = some al ∧
      ∀ r : String, al.countP (fun p => decide (r ∈ p.2)) ≤ 1 :=
  c4_ride_assigned_at_most_once oneRides oneOffers one_valid (1, some oneFlow) one_assign

/- ### Claims C9 and C10 -/

/-- C10.  The two demand assignments of `assign_ride_leaders` are the only
mutation of the network: every edge (with its capacity and weight) is
unchanged, the node set is unchanged, and every node other than the source
and the sink keeps its demand.  (`nx.maximum_flow` and `nx.min_cost_flow`
themselves do not modify their input graph.) -/
theorem c10_solver_frame (rides : List String) (los : List (String × List String)) (F : Nat) :
    (setDemands (pgOf rides los) "SOURCE" "SINK" F).edges = (pgOf rides los).edges ∧
    nodeNames (setDemands (pgOf rides los) "SOURCE" "SINK" F) = nodeNames (pgOf rides los) ∧
    (∀ p ∈ (pgOf rides los).nodes, p.1 ≠ "SOURCE" → p.1 ≠ "SINK" →
      p ∈ (setDemands (pgOf rides los) "SOURCE" "SINK" F).nodes) := by
  refine ⟨rfl, ?_, ?_⟩
  · unfold setDemands
    rw [nodeNames_setDemand, nodeNames_setDemand]
  · intro p hp h1 h2
    exact mem_setDemands_other F hp h1 h2

/-- Witness for C10 at the one-ride input: the edge list survives the demand
mutation and the ride node keeps demand 0. -/
theorem c10_solver_frame_witness :
    (setDemands (pgOf oneRides oneOffers) "SOURCE" "SINK" 1).edges
      = (pgOf oneRides oneOffers).edges ∧
    ("R1", (0 : Int)) ∈ (setDemands (pgOf oneRides oneOffers) "SOURCE" "SINK" 1).nodes :=
  ⟨(c10_solver_frame oneRides oneOffers 1).1,
    (c10_solver_frame oneRides oneOffers 1).2.2 ("R1", 0) (by decide) (by decide) (by decide)⟩

/-- C9.  With zero rides or zero leaders the pipeline raises no error:
`filled_count` is 0 and the allocation maps every leader to the empty list. -/
theorem c9_empty_input (rides : List String) (los : List (String × List String))
    (hv : ValidInput rides los) (hempty : rides = [] ∨ los = [])
    (res : Nat × Option (String → String → Nat))
    (h : AssignResult (pgOf rides los) "SOURCE" "SINK" res) :
    res.1 = 0 ∧ extract_allocations (pgOf rides los) res.2 rides los
      = some (los.map (fun lo => (lo.1, ([] : List String)))) := by
  obtain ⟨F, hmax, hbr⟩ := h
  have hF : F = 0 := by
    obtain ⟨f, _, hcons, hval⟩ := hmax.1
    have htot := value_eq_total_load rides los hv f hcons
    rw [hval] at htot
    rcases hempty with he | he
    · rw [he] at htot
      have h0 : ((([] : List String).map (fun r => f "SOURCE" r)).sum : Int) = 0 := rfl
      have hv2 := flowValue_pg rides los hv f
      rw [he] at hv2
      rw [he] at hval
      rw [hval] at hv2
      simp only [List.map_nil, List.sum_nil] at hv2
      omega
    · rw [he] at htot
      simp only [List.map_nil, List.sum_nil] at htot
      omega
  rcases hbr with ⟨f, _, hres⟩ | ⟨_, hres⟩
  · rw [hres]
    refine ⟨hF, ?_⟩
    rw [extract_eq rides los hv f]
    congr 1
    unfold allocSpec
    apply List.map_congr_left
    intro lo hlo
    rcases hempty with he | he
    · rw [he, List.filter_nil]
    · exact absurd (he ▸ hlo) (List.not_mem_nil lo)
  · rw [hres]
    exact ⟨rfl, rfl⟩

/-- The empty input satisfies both solver contracts with the zero flow. -/
theorem empty_assign : AssignResult (pgOf [] []) "SOURCE" "SINK" (0, some zeroFlow) := by
  refine ⟨0, ⟨⟨zeroFlow, ?_, ?_, ?_⟩, ?_⟩, Or.inl ⟨zeroFlow, ⟨?_, ?_, ?_⟩, rfl⟩⟩
  · unfold FeasibleFlow
    decide
  · unfold Conserved
    decide
  · decide
  · intro f _ _
    have h0 : flowValue (pgOf [] []) f "SOURCE" = 0 := rfl
    omega
  · unfold FeasibleFlow
    decide
  · unfold SatisfiesDemands
    intro p hp
    have h0 : excess (setDemands (pgOf [] []) "SOURCE" "SINK" 0) zeroFlow p.1 = 0 := rfl
    rw [h0]
    have : (setDemands (pgOf [] []) "SOURCE" "SINK" 0).nodes
        = [("SOURCE", 0), ("SINK", 0)] := by decide
    rw [this] at hp
    rcases List.mem_cons.1 hp with he | he
    · rw [he]
    · simp only [List.mem_singleton] at he
      rw [he]
  · intro f' _ _
    exact Nat.zero_le _

/-- Witness for C9 at the empty input. -/
theorem c9_empty_input_witness :
    (0, some zeroFlow).1 = 0 ∧
    extract_allocations (pgOf ([] : List String) ([] : List (String × List String)))
        (0, some zeroFlow).2 [] []
      = some (([] : List (String × List String)).map (fun lo => (lo.1, ([] : List String)))) :=
  c9_empty_input [] [] (by unfold ValidInput; decide) (Or.inl rfl) (0, some zeroFlow) empty_assign

/- ### Claim C7: invalid offer references -/

/-- Counterexample to C7's warning-list part: two inputs that differ only in
WHICH unknown ride id the leader offers produce bit-identical outputs of
`populate_graph`, so no warning list (and no record of the offending pairing
at all) is returned to the caller — the condition is only printed. -/
theorem c7_counterexample :
    populate_graph ["R"] [("A", ["Q1"])] = populate_graph ["R"] [("A", ["Q2"])] ∧
    ("Q1" : String) ∉ ["R"] ∧ ("Q2" : String) ∉ ["R"] ∧ ("Q1" : String) ≠ "Q2" := by
  refine ⟨?_, ?_, ?_, ?_⟩ <;> decide

/-- C7 (amended).  When a leader's offer list contains a ride id absent from
`rides`, `populate_graph` drops that pairing — the finished network contains
no edge from the unknown id into that leader's `_in` node — and continues
building the rest of the network without failing: the full closed-form
network over the remaining data is still produced.  The condition is only
printed to stdout; nothing about it is returned to the caller (see the
counterexample). -/
theorem c7_invalid_offer_dropped (rides : List String)
    (los : List (String × List String)) (hv : ValidInput rides los) :
    (pgOf rides los).edges = pgEdges rides los ∧
    (∀ lo ∈ los, ∀ o ∈ lo.2, o ∉ rides →
      ∀ e ∈ (pgOf rides los).edges, ¬(e.src = o ∧ e.dst = lo.1 ++ "_in")) := by
  obtain ⟨_, _, hsynd, _, _, _, _, hsink, hdisj, _⟩ := id hv
  refine ⟨pg_edges rides los hv, ?_⟩
  intro lo hlo o ho hor e he hcon
  obtain ⟨hsrc, hdst⟩ := hcon
  rw [pg_edges rides los hv] at he
  unfold pgEdges at he
  rcases List.mem_append.1 he with h1 | h2
  · rcases List.mem_append.1 h1 with hs | hl
    · have hmem := (srcEdges_mem hs).2.1
      have hdin : e.dst ∈ synthNames los := hdst ▸ mem_synthNames_in hlo
      exact hdisj e.dst hmem hdin
    · exact leadersEdges_dst_ne_in los lo hsynd hsink hlo e hl hdst
  · exact hor (hsrc ▸ offersEdges_src_mem h2)

/-- Witness for C7: leader `A` offers the known ride `R` and the unknown ride
`Q`; the network is the closed form and has no edge `Q → A_in`. -/
theorem c7_invalid_offer_dropped_witness :
    (pgOf ["R"] [("A", ["R", "Q"])]).edges = pgEdges ["R"] [("A", ["R", "Q"])] ∧
    ∀ e ∈ (pgOf ["R"] [("A", ["R", "Q"])]).edges, ¬(e.src = "Q" ∧ e.dst = "A" ++ "_in") :=
  ⟨(c7_invalid_offer_dropped ["R"] [("A", ["R", "Q"])] (by unfold ValidInput; decide)).1,
   (c7_invalid_offer_dropped ["R"] [("A", ["R", "Q"])] (by unfold ValidInput; decide)).2
     ("A", ["R", "Q"]) (by decide) "Q" (by decide) (by decide)⟩

/- ### Claim C8: leader ids containing the substring of the synthetic suffix -/

theorem kev_upper (f : String → String → Nat) (hfe : FeasibleFlow kevG f) :
    flowValue kevG f "SOURCE" ≤ (1 : Int) := by
  have hout : outflow kevG f "SOURCE" = f "SOURCE" "R1" := rfl
  have hin : inflow kevG f "SOURCE" = 0 := rfl
  have hcap : f "SOURCE" "R1" ≤ 1 := hfe ⟨"SOURCE", "R1", 1, 0⟩ (by decide)
  unfold flowValue
  rw [hout, hin]
  omega

theorem kev_maxflow : MaxFlowSpec kevG "SOURCE" "SINK" 1 := by
  constructor
  · refine ⟨kevFlow, ?_, ?_, ?_⟩
    · unfold FeasibleFlow; decide
    · unfold Conserved; decide
    · decide
  · intro f hfe _
    exact kev_upper f hfe

theorem kev_mincost : MinCostFlowSpec (setDemands kevG "SOURCE" "SINK" 1) kevFlow := by
  refine ⟨?_, ?_, ?_⟩
  · unfold FeasibleFlow; decide
  · unfold SatisfiesDemands; decide
  · intro f' _ _
    have h : cost (setDemands kevG "SOURCE" "SINK" 1) kevFlow = 0 := by decide
    rw [h]
    exact Nat.zero_le _

/-- C8.  CODE BUG.  `extract_allocations` derives the leader key with
`leader.replace('_in', '')`, which removes EVERY occurrence of `_in`, not
only the synthetic suffix.  For the legal input with leader id `Kev_in`
offering ride `R1`, the solver contracts force the unit flow `kevFlow`
through that leader, and the extraction loop then looks up the key
`replace_in "Kev_in_in" = "Kev"`, which is absent from the dictionary keyed
by `Kev_in`: a `KeyError` (modelled as `none`) instead of the mapping the
claim promises. -/
theorem c8_replace_strips_all_occurrences :
    AssignResult kevG "SOURCE" "SINK" (1, some kevFlow) ∧
    replace_in ("Kev_in" ++ "_in") = "Kev" ∧
    extract_allocations kevG (some kevFlow) kevRides kevOffers = none := by
  refine ⟨⟨1, kev_maxflow, Or.inl ⟨kevFlow, kev_mincost, rfl⟩⟩, ?_, ?_⟩
  · decide
  · decide

/- ### Claim C6: infeasible demand handling -/

theorem badG_maxflow : MaxFlowSpec badG "S" "T" 0 := by
  constructor
  · refine ⟨zeroFlow, ?_, ?_, ?_⟩
    · unfold FeasibleFlow; decide
    · unfold Conserved; decide
    · decide
  · intro f _ _
    have h0 : flowValue badG f "S" = 0 := rfl
    omega

theorem badG_infeasible :
    ¬ ∃ f, FeasibleFlow (setDemands badG "S" "T" 0) f ∧
        SatisfiesDemands (setDemands badG "S" "T" 0) f := by
  rintro ⟨f, _, hsat⟩
  have hmem : ("B", (1 : Int)) ∈ (setDemands badG "S" "T" 0).nodes := by decide
  have h := hsat ("B", 1) hmem
  have h2 : (0 : Int) = 1 := by
    rw [show (0 : Int) = excess (setDemands badG "S" "T" 0) f "B" from rfl]
    exact h
  exact absurd h2 (by decide)

/-- Counterexample to C6: the infeasible case is neither loud nor
distinguishable.  On the graph `badG` the exact demand 0 is unrealizable, and
`assign_ride_leaders` returns the ordinary value `(0, {})` — no exception
escapes — whose `filled_count` equals that of a legitimate zero-fill run on
the empty input, and whose downstream extraction is identical to it. -/
theorem c6_counterexample :
    AssignResult badG "S" "T" (0, none) ∧
    AssignResult (pgOf [] []) "SOURCE" "SINK" (0, some zeroFlow) ∧
    ((0 : Nat), (none : Option (String → String → Nat))).1 = ((0 : Nat), some zeroFlow).1 ∧
    extract_allocations badG none [] []
      = extract_allocations (pgOf [] []) (some zeroFlow) [] [] :=
  ⟨⟨0, badG_maxflow, Or.inr ⟨badG_infeasible, rfl⟩⟩, empty_assign, rfl, rfl⟩

/-- C6 (amended).  When the min-cost phase cannot realize the exact demand
`F`, `assign_ride_leaders` does not abort loudly: it catches the solver
exception and silently returns `(0, {})`, and the caller's extraction of
that result is exactly the all-empty allocation that a legitimate zero-fill
run also produces — the two outcomes are confusable. -/
theorem c6_infeasible_silently_zero (g : Graph) (s t : String) (F : Nat)
    (hmax : MaxFlowSpec g s t F)
    (hinf : ¬ ∃ f, FeasibleFlow (setDemands g s t F) f ∧
        SatisfiesDemands (setDemands g s t F) f)
    (rides : List String) (los : List (String × List String)) :
    AssignResult g s t (0, none) ∧
    extract_allocations g none rides los
      = some (los.map (fun lo => (lo.1, ([] : List String)))) :=
  ⟨⟨F, hmax, Or.inr ⟨hinf, rfl⟩⟩, rfl⟩

/-- Witness for C6 on the infeasible graph `badG`. -/
theorem c6_infeasible_silently_zero_witness :
    AssignResult badG "S" "T" (0, none) ∧
    extract_allocations badG none ["R1"] [("A", ["R1"])]
      = some ([("A", ["R1"])].map (fun lo => (lo.1, ([] : List String)))) :=
  c6_infeasible_silently_zero badG "S" "T" 0 badG_maxflow badG_infeasible ["R1"] [("A", ["R1"])]

/- ### Claim C5: Scenario A -/

theorem scn_valid : ValidInput scnRides scnOffers := by
  unfold ValidInput
  decide

theorem scnG_char : scnG = ⟨pgNodes scnRides scnOffers, pgEdges scnRides scnOffers⟩ :=
  pg_char scnRides scnOffers scn_valid

theorem scnG_edges : scnG.edges = scnEdges := by
  rw [scnG_char]
  decide

theorem scn_feas : FeasibleFlow scnG scnFlow := by
  unfold FeasibleFlow
  rw [scnG_edges]
  decide

theorem scn_cons : Conserved scnG scnFlow "SOURCE" "SINK" := by
  unfold Conserved
  rw [scnG_char]
  decide

theorem scn_val : flowValue scnG scnFlow "SOURCE" = (5 : Int) := by
  rw [show flowValue scnG scnFlow "SOURCE"
      = ((edgeOutSum scnFlow "SOURCE" scnG.edges : Nat) : Int)
      - ((edgeInSum scnFlow "SOURCE" scnG.edges : Nat) : Int) from rfl, scnG_edges]
  decide

theorem scn_sd_feas : FeasibleFlow (setDemands scnG "SOURCE" "SINK" 5) scnFlow := by
  unfold FeasibleFlow
  rw [edges_setDemands, scnG_edges]
  decide

theorem scn_sd_sat : SatisfiesDemands (setDemands scnG "SOURCE" "SINK" 5) scnFlow := by
  unfold SatisfiesDemands
  rw [scnG_char]
  decide

theorem scn_upper (f : String → String → Nat) (hfe : FeasibleFlow scnG f)
    (hcons : Conserved scnG f "SOURCE" "SINK") :
    flowValue scnG f "SOURCE" ≤ (5 : Int) := by
  have hfe4 : ∀ e ∈ scnEdges, f e.src e.dst ≤ e.capacity := by
    rw [← scnG_edges]
    exact hfe
  have hc1 : f "SOURCE" "R1" ≤ 1 := hfe4 ⟨"SOURCE", "R1", 1, 0⟩ (by decide)
  have hc2 : f "SOURCE" "R2" ≤ 1 := hfe4 ⟨"SOURCE", "R2", 1, 0⟩ (by decide)
  have hc3 : f "SOURCE" "R3" ≤ 1 := hfe4 ⟨"SOURCE", "R3", 1, 0⟩ (by decide)
  have hc4 : f "SOURCE" "R4" ≤ 1 := hfe4 ⟨"SOURCE", "R4", 1, 0⟩ (by decide)
  have hc5 : f "SOURCE" "R5" ≤ 1 := hfe4 ⟨"SOURCE", "R5", 1, 0⟩ (by decide)
  have h6 : ((edgeInSum f "R6" scnEdges : Nat) : Int)
      - ((edgeOutSum f "R6" scnEdges : Nat) : Int) = 0 := by
    have h : excess scnG f "R6" = 0 :=
      hcons ("R6", 0) (by rw [scnG_char]; decide) (by decide) (by decide)
    rw [show excess scnG f "R6" = ((edgeInSum f "R6" scnG.edges : Nat) : Int)
        - ((edgeOutSum f "R6" scnG.edges : Nat) : Int) from rfl, scnG_edges] at h
    exact h
  have hv : flowValue scnG f "SOURCE" = ((edgeOutSum f "SOURCE" scnEdges : Nat) : Int)
      - ((edgeInSum f "SOURCE" scnEdges : Nat) : Int) := by
    rw [show flowValue scnG f "SOURCE" = ((edgeOutSum f "SOURCE" scnG.edges : Nat) : Int)
        - ((edgeInSum f "SOURCE" scnG.edges : Nat) : Int) from rfl, scnG_edges]
  rw [hv]
  simp only [scnEdges, edgeInSum, edgeOutSum, String.reduceEq, reduceIte] at h6 ⊢
  omega
/-- Every feasible flow meeting the Scenario A demands has cost at least 2,
and if its cost is at most 2 its three leader loads are 2, 2, 1 in some
order. -/
theorem scn_flow_facts (f : String → String → Nat)
    (hfe : FeasibleFlow (setDemands scnG "SOURCE" "SINK" 5) f)
    (hsat : SatisfiesDemands (setDemands scnG "SOURCE" "SINK" 5) f) :
    2 ≤ cost scnG f ∧
    (cost scnG f ≤ 2 →
      ((leaderLoad f scnRides ("X", ["R1", "R2", "R3"]) = 2 ∧
        leaderLoad f scnRides ("Y", ["R1", "R2", "R4", "R5"]) = 2 ∧
        leaderLoad f scnRides ("Z", ["R3", "R4", "R5"]) = 1) ∨
       (leaderLoad f scnRides ("X", ["R1", "R2", "R3"]) = 2 ∧
        leaderLoad f scnRides ("Y", ["R1", "R2", "R4", "R5"]) = 1 ∧
        leaderLoad f scnRides ("Z", ["R3", "R4", "R5"]) = 2) ∨
       (leaderLoad f scnRides ("X", ["R1", "R2", "R3"]) = 1 ∧
        leaderLoad f scnRides ("Y", ["R1", "R2", "R4", "R5"]) = 2 ∧
        leaderLoad f scnRides ("Z", ["R3", "R4", "R5"]) = 2))) := by
  have hedges : (setDemands scnG "SOURCE" "SINK" 5).edges = scnEdges := by
    rw [edges_setDemands, scnG_edges]
  have hnodes : (setDemands scnG "SOURCE" "SINK" 5).nodes = scnNodesD := by
    rw [scnG_char]
    decide
  have hfe3 : ∀ e ∈ scnEdges, f e.src e.dst ≤ e.capacity := by
    rw [← hedges]
    exact hfe
  have hsat3 : ∀ p ∈ scnNodesD,
      ((edgeInSum f p.1 scnEdges : Nat) : Int)
        - ((edgeOutSum f p.1 scnEdges : Nat) : Int) = p.2 := by
    rw [← hedges, ← hnodes]
    exact hsat
  have k0 : f "SOURCE" "R1" ≤ 1 := hfe3 ⟨"SOURCE", "R1", 1, 0⟩ (by decide)
  have k1 : f "SOURCE" "R2" ≤ 1 := hfe3 ⟨"SOURCE", "R2", 1, 0⟩ (by decide)
  have k2 : f "SOURCE" "R3" ≤ 1 := hfe3 ⟨"SOURCE", "R3", 1, 0⟩ (by decide)
  have k3 : f "SOURCE" "R4" ≤ 1 := hfe3 ⟨"SOURCE", "R4", 1, 0⟩ (by decide)
  have k4 : f "SOURCE" "R5" ≤ 1 := hfe3 ⟨"SOURCE", "R5", 1, 0⟩ (by decide)
  have k5 : f "SOURCE" "R6" ≤ 1 := hfe3 ⟨"SOURCE", "R6", 1, 0⟩ (by decide)
  have k6 : f "X_in" "X_slot_0" ≤ 1 := hfe3 ⟨"X_in", "X_slot_0", 1, 0⟩ (by decide)
  have k7 : f "X_slot_0" "X_out" ≤ 1 := hfe3 ⟨"X_slot_0", "X_out", 1, 0⟩ (by decide)
  have k8 : f "X_in" "X_slot_1" ≤ 1 := hfe3 ⟨"X_in", "X_slot_1", 1, 0⟩ (by decide)
  have k9 : f "X_slot_1" "X_out" ≤ 1 := hfe3 ⟨"X_slot_1", "X_out", 1, 1⟩ (by decide)
  have k10 : f "X_in" "X_slot_2" ≤ 1 := hfe3 ⟨"X_in", "X_slot_2", 1, 0⟩ (by decide)
  have k11 : f "X_slot_2" "X_out" ≤ 1 := hfe3 ⟨"X_slot_2", "X_out", 1, 2⟩ (by decide)
  have k12 : f "X_out" "SINK" ≤ 3 := hfe3 ⟨"X_out", "SINK", 3, 0⟩ (by decide)
  have k13 : f "Y_in" "Y_slot_0" ≤ 1 := hfe3 ⟨"Y_in", "Y_slot_0", 1, 0⟩ (by decide)
  have k14 : f "Y_slot_0" "Y_out" ≤ 1 := hfe3 ⟨"Y_slot_0", "Y_out", 1, 0⟩ (by decide)
  have k15 : f "Y_in" "Y_slot_1" ≤ 1 := hfe3 ⟨"Y_in", "Y_slot_1", 1, 0⟩ (by decide)
  have k16 : f "Y_slot_1" "Y_out" ≤ 1 := hfe3 ⟨"Y_slot_1", "Y_out", 1, 1⟩ (by decide)
  have k17 : f "Y_in" "Y_slot_2" ≤ 1 := hfe3 ⟨"Y_in", "Y_slot_2", 1, 0⟩ (by decide)
  have k18 : f "Y_slot_2" "Y_out" ≤ 1 := hfe3 ⟨"Y_slot_2", "Y_out", 1, 2⟩ (by decide)
  have k19 : f "Y_in" "Y_slot_3" ≤ 1 := hfe3 ⟨"Y_in", "Y_slot_3", 1, 0⟩ (by decide)
  have k20 : f "Y_slot_3" "Y_out" ≤ 1 := hfe3 ⟨"Y_slot_3", "Y_out", 1, 3⟩ (by decide)
  have k21 : f "Y_out" "SINK" ≤ 4 := hfe3 ⟨"Y_out", "SINK", 4, 0⟩ (by decide)
  have k22 : f "Z_in" "Z_slot_0" ≤ 1 := hfe3 ⟨"Z_in", "Z_slot_0", 1, 0⟩ (by decide)
  have k23 : f "Z_slot_0" "Z_out" ≤ 1 := hfe3 ⟨"Z_slot_0", "Z_out", 1, 0⟩ (by decide)
  have k24 : f "Z_in" "Z_slot_1" ≤ 1 := hfe3 ⟨"Z_in", "Z_slot_1", 1, 0⟩ (by decide)
  have k25 : f "Z_slot_1" "Z_out" ≤ 1 := hfe3 ⟨"Z_slot_1", "Z_out", 1, 1⟩ (by decide)
  have k26 : f "Z_in" "Z_slot_2" ≤ 1 := hfe3 ⟨"Z_in", "Z_slot_2", 1, 0⟩ (by decide)
  have k27 : f "Z_slot_2" "Z_out" ≤ 1 := hfe3 ⟨"Z_slot_2", "Z_out", 1, 2⟩ (by decide)
  have k28 : f "Z_out" "SINK" ≤ 3 := hfe3 ⟨"Z_out", "SINK", 3, 0⟩ (by decide)
  have k29 : f "R1" "X_in" ≤ 1 := hfe3 ⟨"R1", "X_in", 1, 0⟩ (by decide)
  have k30 : f "R2" "X_in" ≤ 1 := hfe3 ⟨"R2", "X_in", 1, 0⟩ (by decide)
  have k31 : f "R3" "X_in" ≤ 1 := hfe3 ⟨"R3", "X_in", 1, 0⟩ (by decide)
  have k32 : f "R1" "Y_in" ≤ 1 := hfe3 ⟨"R1", "Y_in", 1, 0⟩ (by decide)
  have k33 : f "R2" "Y_in" ≤ 1 := hfe3 ⟨"R2", "Y_in", 1, 0⟩ (by decide)
  have k34 : f "R4" "Y_in" ≤ 1 := hfe3 ⟨"R4", "Y_in", 1, 0⟩ (by decide)
  have k35 : f "R5" "Y_in" ≤ 1 := hfe3 ⟨"R5", "Y_in", 1, 0⟩ (by decide)
  have k36 : f "R3" "Z_in" ≤ 1 := hfe3 ⟨"R3", "Z_in", 1, 0⟩ (by decide)
  have k37 : f "R4" "Z_in" ≤ 1 := hfe3 ⟨"R4", "Z_in", 1, 0⟩ (by decide)
  have k38 : f "R5" "Z_in" ≤ 1 := hfe3 ⟨"R5", "Z_in", 1, 0⟩ (by decide)
  have d0 := hsat3 ("SOURCE", -5) (by decide)
  have d1 := hsat3 ("SINK", 5) (by decide)
  have d2 := hsat3 ("R1", 0) (by decide)
  have d3 := hsat3 ("R2", 0) (by decide)
  have d4 := hsat3 ("R3", 0) (by decide)
  have d5 := hsat3 ("R4", 0) (by decide)
  have d6 := hsat3 ("R5", 0) (by decide)
  have d7 := hsat3 ("R6", 0) (by decide)
  have d8 := hsat3 ("X_in", 0) (by decide)
  have d9 := hsat3 ("X_out", 0) (by decide)
  have d10 := hsat3 ("X_slot_0", 0) (by decide)
  have d11 := hsat3 ("X_slot_1", 0) (by decide)
  have d12 := hsat3 ("X_slot_2", 0) (by decide)
  have d13 := hsat3 ("Y_in", 0) (by decide)
  have d14 := hsat3 ("Y_out", 0) (by decide)
  have d15 := hsat3 ("Y_slot_0", 0) (by decide)
  have d16 := hsat3 ("Y_slot_1", 0) (by decide)
  have d17 := hsat3 ("Y_slot_2", 0) (by decide)
  have d18 := hsat3 ("Y_slot_3", 0) (by decide)
  have d19 := hsat3 ("Z_in", 0) (by decide)
  have d20 := hsat3 ("Z_out", 0) (by decide)
  have d21 := hsat3 ("Z_slot_0", 0) (by decide)
  have d22 := hsat3 ("Z_slot_1", 0) (by decide)
  have d23 := hsat3 ("Z_slot_2", 0) (by decide)
  have hcost : cost scnG f = costSum f scnEdges := by
    rw [show cost scnG f = costSum f scnG.edges from rfl, scnG_edges]
  have hLX : leaderLoad f scnRides ("X", ["R1", "R2", "R3"])
      = f "R1" "X_in" + (f "R2" "X_in" + f "R3" "X_in") := rfl
  have hLY : leaderLoad f scnRides ("Y", ["R1", "R2", "R4", "R5"])
      = f "R1" "Y_in" + (f "R2" "Y_in" + (f "R4" "Y_in" + f "R5" "Y_in")) := rfl
  have hLZ : leaderLoad f scnRides ("Z", ["R3", "R4", "R5"])
      = f "R3" "Z_in" + (f "R4" "Z_in" + f "R5" "Z_in") := rfl
  rw [hcost, hLX, hLY, hLZ]
  simp only [scnEdges, edgeInSum, edgeOutSum, costSum, String.reduceEq, reduceIte,
    zero_mul, one_mul, zero_add, add_zero]
      at d0 d1 d2 d3 d4 d5 d6 d7 d8 d9 d10 d11 d12 d13 d14 d15 d16 d17 d18 d19 d20 d21 d22 d23 ⊢
  have hF1 : f "R1" "X_in" + f "R2" "X_in" + f "R3" "X_in" + (f "R1" "Y_in" + f "R2" "Y_in" + f "R4" "Y_in" + f "R5" "Y_in") + (f "R3" "Z_in" + f "R4" "Z_in" + f "R5" "Z_in") = 5 := by omega
  have hF2 : f "R1" "X_in" + f "R2" "X_in" + f "R3" "X_in" ≤ f "X_slot_1" "X_out" + 2 * f "X_slot_2" "X_out" + 1 := by omega
  have hF3 : 3 * (f "R1" "X_in" + f "R2" "X_in" + f "R3" "X_in") ≤ f "X_slot_1" "X_out" + 2 * f "X_slot_2" "X_out" + 6 := by omega
  have hF4 : f "R1" "Y_in" + f "R2" "Y_in" + f "R4" "Y_in" + f "R5" "Y_in" ≤ f "Y_slot_1" "Y_out" + 2 * f "Y_slot_2" "Y_out" + 3 * f "Y_slot_3" "Y_out" + 1 := by omega
  have hF5 : 3 * (f "R1" "Y_in" + f "R2" "Y_in" + f "R4" "Y_in" + f "R5" "Y_in") ≤ f "Y_slot_1" "Y_out" + 2 * f "Y_slot_2" "Y_out" + 3 * f "Y_slot_3" "Y_out" + 6 := by omega
  have hF6 : f "R3" "Z_in" + f "R4" "Z_in" + f "R5" "Z_in" ≤ f "Z_slot_1" "Z_out" + 2 * f "Z_slot_2" "Z_out" + 1 := by omega
  have hF7 : 3 * (f "R3" "Z_in" + f "R4" "Z_in" + f "R5" "Z_in") ≤ f "Z_slot_1" "Z_out" + 2 * f "Z_slot_2" "Z_out" + 6 := by omega
  clear d0 d1 d2 d3 d4 d5 d6 d7 d8 d9 d10 d11 d12 d13 d14 d15 d16 d17 d18 d19 d20 d21 d22 d23 k0 k1 k2 k3 k4 k5 k6 k7 k8 k9 k10 k11 k12 k13 k14 k15 k16 k17 k18 k19 k20 k21 k22 k23 k24 k25 k26 k27 k28 k29 k30 k31 k32 k33 k34 k35 k36 k37 k38 hedges hnodes hfe3 hsat3 hcost hLX hLY hLZ hfe hsat
  omega

theorem scn_maxflow : MaxFlowSpec scnG "SOURCE" "SINK" 5 := by
  constructor
  · exact ⟨scnFlow, scn_feas, scn_cons, scn_val⟩
  · intro f hfe hcons
    exact scn_upper f hfe hcons

theorem scn_mincost : MinCostFlowSpec (setDemands scnG "SOURCE" "SINK" 5) scnFlow := by
  refine ⟨scn_sd_feas, scn_sd_sat, ?_⟩
  intro g hfe hsat
  have h2 : cost (setDemands scnG "SOURCE" "SINK" 5) scnFlow = 2 := by
    rw [cost_setDemands,
      show cost scnG scnFlow = costSum scnFlow scnG.edges from rfl, scnG_edges]
    decide
  have h3 : 2 ≤ cost scnG g := (scn_flow_facts g hfe hsat).1
  have h4 : cost (setDemands scnG "SOURCE" "SINK" 5) g = cost scnG g :=
    cost_setDemands scnG "SOURCE" "SINK" 5 g
  omega

theorem scn_assign : AssignResult scnG "SOURCE" "SINK" (5, some scnFlow) :=
  ⟨5, scn_maxflow, Or.inl ⟨scnFlow, scn_mincost, rfl⟩⟩

/-- Counterexample to C5: `filled_count = 6` is impossible for Scenario A.
`R6` appears in no leader's offer list, so every conserved flow pushes 0
through its ride node and the maximum flow value is 5, not 6; the spec's
expected outcome (6 filled, every leader 2 rides, total cost 3) cannot be
produced by the program on its own scenario. -/
theorem c5_counterexample : ¬ MaxFlowSpec scnG "SOURCE" "SINK" 6 := by
  rintro ⟨⟨f, hfe, hcons, hval⟩, -⟩
  have h := scn_upper f hfe hcons
  rw [hval] at h
  omega

/-- C5 (amended).  For Scenario A (`rides = R1..R6`, offers `X:[R1,R2,R3],
Y:[R1,R2,R4,R5], Z:[R3,R4,R5]`), ride `R6` is offered by nobody, so the
solve yields `filled_count = 5` (not 6), the returned flow has total cost 2
(not 3), and the extracted per-leader allocation sizes are 2, 2 and 1 in
some order (not 2, 2, 2). -/
theorem c5_scenario_a (res : Nat × Option (String → String → Nat))
    (h : AssignResult scnG "SOURCE" "SINK" res) :
    res.1 = 5 ∧
    ∃ f, res.2 = some f ∧ cost scnG f = 2 ∧
      extract_allocations scnG res.2 scnRides scnOffers
        = some (allocSpec scnRides scnOffers f) ∧
      ((allocSpec scnRides scnOffers f).map (fun p => p.2.length) = [2, 2, 1] ∨
       (allocSpec scnRides scnOffers f).map (fun p => p.2.length) = [2, 1, 2] ∨
       (allocSpec scnRides scnOffers f).map (fun p => p.2.length) = [1, 2, 2]) := by
  obtain ⟨F, hmax, hbr⟩ := h
  have hF : F = 5 := by
    obtain ⟨f0, hfe0, hcons0, hval0⟩ := hmax.1
    have hub := scn_upper f0 hfe0 hcons0
    rw [hval0] at hub
    have hlb := hmax.2 scnFlow scn_feas scn_cons
    rw [scn_val] at hlb
    omega
  subst hF
  rcases hbr with ⟨f, hmc, hres⟩ | ⟨hinf, hres⟩
  · obtain ⟨hfe2, hsat2, hmin⟩ := hmc
    have hmin2 := hmin scnFlow scn_sd_feas scn_sd_sat
    have h2 : cost (setDemands scnG "SOURCE" "SINK" 5) scnFlow = 2 := by
      rw [cost_setDemands,
        show cost scnG scnFlow = costSum scnFlow scnG.edges from rfl, scnG_edges]
      decide
    have h4 : cost (setDemands scnG "SOURCE" "SINK" 5) f = cost scnG f :=
      cost_setDemands scnG "SOURCE" "SINK" 5 f
    have hge : 2 ≤ cost scnG f := (scn_flow_facts f hfe2 hsat2).1
    have hle : cost scnG f ≤ 2 := by omega
    have hceq : cost scnG f = 2 := by omega
    have hloads := (scn_flow_facts f hfe2 hsat2).2 hle
    have hfeG : FeasibleFlow scnG f := hfe2
    have hex : extract_allocations (pgOf scnRides scnOffers) (some f) scnRides scnOffers
        = some (allocSpec scnRides scnOffers f) := extract_eq scnRides scnOffers scn_valid f
    have hmap : (allocSpec scnRides scnOffers f).map (fun p => p.2.length)
        = [(scnRides.filter (fun r => decide (r ∈ ("X", ["R1", "R2", "R3"]).2)
              && decide (0 < f r (("X", ["R1", "R2", "R3"]).1 ++ "_in")))).length,
           (scnRides.filter (fun r => decide (r ∈ ("Y", ["R1", "R2", "R4", "R5"]).2)
              && decide (0 < f r (("Y", ["R1", "R2", "R4", "R5"]).1 ++ "_in")))).length,
           (scnRides.filter (fun r => decide (r ∈ ("Z", ["R3", "R4", "R5"]).2)
              && decide (0 < f r (("Z", ["R3", "R4", "R5"]).1 ++ "_in")))).length] := rfl
    have hlenX : (scnRides.filter (fun r => decide (r ∈ ("X", ["R1", "R2", "R3"]).2)
          && decide (0 < f r (("X", ["R1", "R2", "R3"]).1 ++ "_in")))).length
        = leaderLoad f scnRides ("X", ["R1", "R2", "R3"]) :=
      length_filter_eq_load scnRides scnOffers scn_valid f hfeG
        (show ("X", ["R1", "R2", "R3"]) ∈ scnOffers by decide)
    have hlenY : (scnRides.filter (fun r => decide (r ∈ ("Y", ["R1", "R2", "R4", "R5"]).2)
          && decide (0 < f r (("Y", ["R1", "R2", "R4", "R5"]).1 ++ "_in")))).length
        = leaderLoad f scnRides ("Y", ["R1", "R2", "R4", "R5"]) :=
      length_filter_eq_load scnRides scnOffers scn_valid f hfeG
        (show ("Y", ["R1", "R2", "R4", "R5"]) ∈ scnOffers by decide)
    have hlenZ : (scnRides.filter (fun r => decide (r ∈ ("Z", ["R3", "R4", "R5"]).2)
          && decide (0 < f r (("Z", ["R3", "R4", "R5"]).1 ++ "_in")))).length
        = leaderLoad f scnRides ("Z", ["R3", "R4", "R5"]) :=
      length_filter_eq_load scnRides scnOffers scn_valid f hfeG
        (show ("Z", ["R3", "R4", "R5"]) ∈ scnOffers by decide)
    rw [hlenX, hlenY, hlenZ] at hmap
    rw [hres]
    refine ⟨rfl, f, rfl, hceq, hex, ?_⟩
    rcases hloads with ⟨e1, e2, e3⟩ | ⟨e1, e2, e3⟩ | ⟨e1, e2, e3⟩
    · exact Or.inl (by rw [hmap, e1, e2, e3])
    · exact Or.inr (Or.inl (by rw [hmap, e1, e2, e3]))
    · exact Or.inr (Or.inr (by rw [hmap, e1, e2, e3]))
  · exact absurd ⟨scnFlow, scn_sd_feas, scn_sd_sat⟩ hinf

/-- Witness for C5 at the concrete solver result `(5, scnFlow)`. -/
theorem c5_scenario_a_witness :
    ((5 : Nat), some scnFlow).1 = 5 ∧
    ∃ f, ((5 : Nat), some scnFlow).2 = some f ∧ cost scnG f = 2 ∧
      extract_allocations scnG ((5 : Nat), some scnFlow).2 scnRides scnOffers
        = some (allocSpec scnRides scnOffers f) ∧
      ((allocSpec scnRides scnOffers f).map (fun p => p.2.length) = [2, 2, 1] ∨
       (allocSpec scnRides scnOffers f).map (fun p => p.2.length) = [2, 1, 2] ∨
       (allocSpec scnRides scnOffers f).map (fun p => p.2.length) = [1, 2, 2]) :=
  c5_scenario_a ((5 : Nat), some scnFlow) scn_assign
